import Mathlib

/-!
Verification development for the image-flow-editor workflow engine.

This file gives a shallow embedding, in Lean 4, of the scheduling and
execution core of the repository:

* `getExecutionOrder` (App.tsx): Kahn topological sort over workflow nodes
  and connections, returning `none` when the produced order does not cover
  every node (the ValidationError path).
* the Gemini service (`setApiKey`, `parseDataUrl`, `attemptGenerate`,
  `editImage`): per-model retry with backoff, quota classification by
  message text, server-suggested delays, failover across the model
  preference list, and the aggregated quota error.
* `executeWorkflow` (App.tsx): the batch runner threading each image
  through the ordered steps, with success/failure logging, output
  accumulation, and cooperative cancellation.

JavaScript `Map` objects are embedded as total functions with default
values (`0` for in-degree counts, `[]` for adjacency lists), which matches
`get(...) || 0` / `|| []` access in the source.  The `while` loop of the
topological sort is given explicit fuel `nodes.length + connections.length
+ 1`; invariants proved below only need that every reachable state of the
loop is sound, never that the fuel suffices, except on concrete runs where
the loop is evaluated outright.

Time is modelled as a logical clock that advances exactly at the `await`
suspension points of the source (a `generateContent` network call, a
backoff sleep, the 250 ms inter-model pause).  The cancellation signal is
a function of that clock: this captures the single-threaded JavaScript
event loop, in which the abort flag can only change across an `await`.
The external API is an oracle giving, per call site / model / attempt,
either an image payload or a thrown error message; responses with no
image data are thrown as errors with descriptive messages inside the
source `try` block, so they are absorbed into the error-message case of
the oracle.
-/

namespace ImageFlow

/-! ## String helpers: case-insensitive containment and the quota test -/

/-- Lower-case a list of characters (ASCII case folding, as used by the
`/.../i` regular expressions of the source on their ASCII patterns). -/
def lowerChars (l : List Char) : List Char := l.map Char.toLower

/-- Does `pat` occur at the head of `l`? -/
def prefixAt : List Char → List Char → Bool
  | [], _ => true
  | _ :: _, [] => false
  | p :: ps, c :: cs => p = c && prefixAt ps cs

/-- Does `pat` occur anywhere inside `l`? -/
def hasSub (l pat : List Char) : Bool :=
  match l with
  | [] => prefixAt pat []
  | _ :: cs => prefixAt pat l || hasSub cs pat

/-- Case-insensitive substring test on strings. -/
def containsCI (s pat : String) : Bool :=
  hasSub (lowerChars s.toList) (lowerChars pat.toList)

/-- The quota / rate-limit classifier of `attemptGenerate`:
`/quota|429|Too Many Requests|RESOURCE_EXHAUSTED|Quota exceeded/i.test(msg)`. -/
def quotaTest (msg : String) : Bool :=
  containsCI msg "quota" || containsCI msg "429" ||
    containsCI msg "Too Many Requests" || containsCI msg "RESOURCE_EXHAUSTED" ||
    containsCI msg "Quota exceeded"

/-! ## Graph model and `getExecutionOrder` (App.tsx lines 150-193) -/

/-- A workflow step node (`WorkflowNode` in types.ts); only the fields the
engine reads are kept (position and kind tag never affect execution). -/
structure WorkflowNode where
  id : String
  name : String
  prompt : String
deriving DecidableEq, Repr

/-- A directed connection between two steps (`Connection` in types.ts). -/
structure Connection where
  fromNodeId : String
  toNodeId : String
deriving DecidableEq, Repr

/-- The in-degree map: `connections.forEach(conn => inDegree.set(conn.toNodeId,
(inDegree.get(conn.toNodeId) || 0) + 1))` over an all-zero initial map. -/
def buildInDegree (conns : List Connection) : String → Nat :=
  conns.foldl
    (fun ind c => fun k => if k = c.toNodeId then ind k + 1 else ind k)
    (fun _ => 0)

/-- The adjacency map: every node id starts at `[]`, and
`adj.get(conn.fromNodeId)?.push(conn.toNodeId)` appends the target when the
source id is a key of the map (i.e. is some node's id). -/
def buildAdj (nodeIds : List String) (conns : List Connection) : String → List String :=
  conns.foldl
    (fun adj c =>
      if c.fromNodeId ∈ nodeIds then
        fun k => if k = c.fromNodeId then adj k ++ [c.toNodeId] else adj k
      else adj)
    (fun _ => [])

/-- `new Map(nodes.map(n => [n.id, n]))`: lookup by id, later nodes
overriding earlier ones on duplicate ids. -/
def nodeMapFind (nodes : List WorkflowNode) (u : String) : Option WorkflowNode :=
  nodes.reverse.find? (fun n => n.id = u)

/-- One pass over the adjacency list of a popped node: decrement each
successor's in-degree (`(inDegree.get(v) || 1) - 1`, which is truncated
subtraction on the defaulted map) and enqueue it when the stored value
reaches zero. -/
def processSuccs : List String → (String → Nat) → List String → ((String → Nat) × List String)
  | [], ind, queue => (ind, queue)
  | v :: vs, ind, queue =>
    let d := ind v - 1
    processSuccs vs (fun k => if k = v then d else ind k)
      (if d = 0 then queue ++ [v] else queue)

/-- The Kahn `while (queue.length > 0)` loop, with explicit fuel. -/
def kahnLoop (nodes : List WorkflowNode) (adj : String → List String) :
    Nat → List String → (String → Nat) → List WorkflowNode → List WorkflowNode
  | 0, _, _, order => order
  | _ + 1, [], _, order => order
  | fuel + 1, u :: rest, ind, order =>
    let order' := match nodeMapFind nodes u with
      | some n => order ++ [n]
      | none => order
    let s := processSuccs (adj u) ind rest
    kahnLoop nodes adj fuel s.2 s.1 order'

/-- `getExecutionOrder` (App.tsx): Kahn topological sort; returns `none`
(the source sets the validation error message and returns `null`) when the
sorted order misses some node. -/
def getExecutionOrder (nodes : List WorkflowNode) (conns : List Connection) :
    Option (List WorkflowNode) :=
  if nodes.length = 0 then some []
  else
    let nodeIds := nodes.map (·.id)
    let adj := buildAdj nodeIds conns
    let ind := buildInDegree conns
    let queue := (nodes.filter (fun n => ind n.id = 0)).map (·.id)
    let sortedOrder := kahnLoop nodes adj (nodes.length + conns.length + 1) queue ind []
    if sortedOrder.length = nodes.length then some sortedOrder else none

/-! ## Retry-delay parsing (geminiService `attemptGenerate` catch block) -/

/-- Numeric value of a digit string. -/
def digitsToNat (l : List Char) : Nat :=
  l.foldl (fun a c => a * 10 + (c.toNat - 48)) 0

/-- Maximal leading digit run and the remainder. -/
def takeDigits : List Char → List Char × List Char
  | [] => ([], [])
  | c :: cs =>
    if c.isDigit then
      let p := takeDigits cs
      (c :: p.1, p.2)
    else ([], c :: cs)

/-- Case-insensitive prefix test. -/
def ciPrefixAt : List Char → List Char → Bool
  | [], _ => true
  | _ :: _, [] => false
  | p :: ps, c :: cs => p.toLower = c.toLower && ciPrefixAt ps cs

/-- `Math.round(parseFloat(ipart ++ "." ++ frac) * 1000)` computed exactly
over the captured decimal digits (half-up rounding of `N * 1000`). -/
def roundMs (ipart frac : List Char) : Nat :=
  let scale := 10 ^ frac.length
  let num := digitsToNat ipart * scale + digitsToNat frac
  (2000 * num + scale) / (2 * scale)

/-- Match `(\d+(\.\d+)?)s` at the head of `l` (the tail of the first
pattern), returning the captured value in rounded milliseconds. -/
def matchNum1 (l : List Char) : Option Nat :=
  let p := takeDigits l
  if p.1 = [] then none
  else
    match p.2 with
    | '.' :: r2 =>
      let q := takeDigits r2
      if q.1 = [] then none
      else
        match q.2 with
        | c :: _ => if c.toLower = 's' then some (roundMs p.1 q.1) else none
        | [] => none
    | c :: _ => if c.toLower = 's' then some (roundMs p.1 []) else none
    | [] => none

/-- First match of `/retry in (\d+(\.\d+)?)s/i` over the message text. -/
def scanRetryIn : List Char → Option Nat
  | [] => none
  | c :: cs =>
    if ciPrefixAt ("retry in ".toList) (c :: cs) then
      match matchNum1 ((c :: cs).drop 9) with
      | some ms => some ms
      | none => scanRetryIn cs
    else scanRetryIn cs

/-- Drop leading whitespace (`\s*`). -/
def dropWs : List Char → List Char
  | [] => []
  | c :: cs => if c.isWhitespace then dropWs cs else c :: cs

/-- Match `(\\?\d+\.?\d*)s"?` for the second pattern.  A captured leading
backslash makes `parseFloat` return NaN, encoded as `some none`. -/
def matchNum2 (l : List Char) : Option (Option Nat) :=
  let bs := match l with
    | '\\' :: r => (true, r)
    | _ => (false, l)
  let p := takeDigits bs.2
  if p.1 = [] then none
  else
    let r2 := match p.2 with
      | '.' :: r => r
      | _ => p.2
    let q := takeDigits r2
    match q.2 with
    | c :: _ =>
      if c.toLower = 's' then
        if bs.1 then some none else some (some (roundMs p.1 q.1))
      else none
    | [] => none

/-- After the literal `"retryDelay"`: `\s*:\s*"?` then the number. -/
def matchRetryDelayAt (l : List Char) : Option (Option Nat) :=
  match dropWs l with
  | ':' :: l2 =>
    let l3 := dropWs l2
    let l4 := match l3 with
      | '"' :: r => r
      | _ => l3
    matchNum2 l4
  | _ => none

/-- First match of the structured pattern
`/"retryDelay"\s*:\s*"?(\\?\d+\.?\d*)s"?/i`. -/
def scanRetryDelay : List Char → Option (Option Nat)
  | [] => none
  | c :: cs =>
    if ciPrefixAt ("\"retryDelay\"".toList) (c :: cs) then
      match matchRetryDelayAt ((c :: cs).drop 12) with
      | some v => some v
      | none => scanRetryDelay cs
    else scanRetryDelay cs

/-- The `suggestedDelayMs` computation of the catch block: the first
pattern wins, else the structured pattern; `some none` is the NaN case. -/
def suggestedDelay (msg : String) : Option (Option Nat) :=
  match scanRetryIn msg.toList with
  | some ms => some (some ms)
  | none => scanRetryDelay msg.toList

/-! ## Gemini service: `attemptGenerate` and `editImage` -/

def MAX_RETRIES : Nat := 3
def INITIAL_DELAY_MS : Nat := 1000
def MAX_DELAY_MS : Nat := 30000

/-- `suggestedDelayMs ?? Math.min(INITIAL_DELAY_MS * 2 ** (attempt - 1),
MAX_DELAY_MS)`.  JavaScript `??` falls through only when no pattern matched
(null), not on the NaN case. -/
def backoffOf (msg : String) (attempt : Nat) : Option Nat :=
  match suggestedDelay msg with
  | some v => v
  | none => some (min (INITIAL_DELAY_MS * 2 ^ (attempt - 1)) MAX_DELAY_MS)

/-- One `generateContent` call either yields image data (an inline-data
part) or throws an error with a message.  Responses with no image part are
thrown inside the same `try` as descriptive errors (safety block, abnormal
finish reason, empty response), so they are instances of `err`. -/
inductive ApiOutcome
  | ok (mimeType data : String)
  | err (msg : String)

/-- The external world: the API oracle (call site in the run, model name,
attempt index for that model) and the abort signal as a function of
logical time.  Time advances exactly at `await` points, so the signal is
constant across a synchronous stretch of code. -/
structure Env where
  api : Nat → String → Nat → ApiOutcome
  sig : Nat → Bool

/-- Observable progress events of the service. -/
inductive Event
  | retry (attempt : Nat) (delayMs : Option Nat) (model : String)
  | sleep (delayMs : Option Nat)
  | pause
deriving DecidableEq, Repr

/-- A backend call that was actually issued. -/
structure Call where
  site : Nat
  model : String
  attempt : Nat
  time : Nat
deriving DecidableEq, Repr

/-- Service-level state threaded through a run: the logical clock, the
chronological event list, and the calls issued so far. -/
structure SvcSt where
  t : Nat
  events : List Event
  calls : List Call
deriving DecidableEq, Repr

/-- Result of `attemptGenerate`: `{success: true, result}`,
`{success: false}` (quota exhausted for this model), or a thrown error. -/
inductive GenOut
  | success (result : String)
  | quotaFail
  | thrown (msg : String)
deriving DecidableEq, Repr

/-- `attemptGenerate` for one model: the retry loop with backoff.  The
fuel is `MAX_RETRIES + 1 - attempt`; the fuel-0 case is the source's dead
`return { success: false }` fall-through after the loop. -/
def attemptGenerate (env : Env) (site : Nat) (model : String) :
    Nat → Nat → SvcSt → GenOut × SvcSt
  | 0, _, st => (.quotaFail, st)
  | fuel + 1, attempt, st =>
    if env.sig st.t then
      -- the early-abort check sits inside the `try`: its throw is caught by
      -- this iteration's catch, fails the quota test, and is re-thrown
      -- wrapped as a fatal error
      (.thrown "AI processing failed: Request aborted", st)
    else
      match env.api site model attempt with
      | .ok mimeType dat =>
        (.success ("data:" ++ mimeType ++ ";base64," ++ dat),
          { st with t := st.t + 1, calls := st.calls ++ [⟨site, model, attempt, st.t⟩] })
      | .err msg =>
        let st1 : SvcSt :=
          { st with t := st.t + 1, calls := st.calls ++ [⟨site, model, attempt, st.t⟩] }
        let attempt' := attempt + 1
        if quotaTest msg then
          if attempt' ≤ MAX_RETRIES then
            let backoff := backoffOf msg attempt'
            let st2 : SvcSt :=
              { st1 with events := st1.events ++ [.retry attempt' backoff model] }
            if env.sig st2.t then (.thrown "Request aborted", st2)
            else
              let st3 : SvcSt :=
                { st2 with t := st2.t + 1, events := st2.events ++ [.sleep backoff] }
              if env.sig st3.t then (.thrown "Request aborted", st3)
              else attemptGenerate env site model fuel attempt' st3
          else (.quotaFail, st1)
        else (.thrown ("AI processing failed: " ++ msg), st1)

/-- Service-level error values: the `QuotaError` class (name and details)
or a plain `Error` message. -/
inductive RunErr
  | quota (msg : String) (modelFailures : List (String × String))
  | plain (msg : String)
deriving DecidableEq, Repr

def MODEL_PREFERENCES : List String :=
  ["gemini-2.0-flash-preview-image-generation",
   "gemini-2.5-flash-image-preview",
   "gemini-2.1-image-preview",
   "gemini-1.5-preview-image"]

def helpUrl : String := "https://ai.google.dev/gemini-api/docs/rate-limits"

def quotaMessage : String :=
  "All attempted Gemini models were unavailable due to quota/rate-limits or returned no image. Please check your Google Cloud billing, ensure the Generative AI API is enabled, and verify model-specific quotas. See: " ++ helpUrl

/-- Split `l` at the first occurrence of `pat`. -/
def splitFirst (pat : List Char) : List Char → Option (List Char × List Char)
  | [] => if pat = [] then some ([], []) else none
  | c :: cs =>
    if prefixAt pat (c :: cs) then some ([], (c :: cs).drop pat.length)
    else
      match splitFirst pat cs with
      | some (a, b) => some (c :: a, b)
      | none => none

/-- `parseDataUrl`: `/^data:(.*?);base64,(.*)$/` where the JavaScript `.`
matches neither newlines nor the Unicode line separators; the lazy first
group splits at the first `";base64,"`. -/
def parseDataUrl (dataUrl : String) : Option (String × String) :=
  let chars := dataUrl.toList
  if chars.any (fun c => c = '\n' || c = '\r' || c = '\u2028' || c = '\u2029') then none
  else if prefixAt ("data:".toList) chars then
    match splitFirst (";base64,".toList) (chars.drop 5) with
    | some (mime, dat) => some (mime.asString, dat.asString)
    | none => none
  else none

/-- The failover loop of `editImage` over the remaining models, carrying
the `modelFailures` record. -/
def modelsLoop (env : Env) (site : Nat) :
    List String → List (String × String) → SvcSt → Except RunErr String × SvcSt
  | [], failures, st => (.error (.quota quotaMessage failures), st)
  | m :: ms, failures, st =>
    match attemptGenerate env site m (MAX_RETRIES + 1) 0 st with
    | (.success r, st') =>
      if r = "" then
        -- `attempt.success && attempt.result` is falsy on an empty result:
        -- the model is recorded as failed and the loop moves on
        let failures' := failures ++ [(m, "quota_or_rate_limit_or_no_result")]
        if env.sig st'.t then (.error (.plain "Request aborted"), st')
        else
          let st'' : SvcSt := { st' with t := st'.t + 1, events := st'.events ++ [.pause] }
          if env.sig st''.t then (.error (.plain "Request aborted"), st'')
          else modelsLoop env site ms failures' st''
      else (.ok r, st')
    | (.quotaFail, st') =>
      let failures' := failures ++ [(m, "quota_or_rate_limit_or_no_result")]
      if env.sig st'.t then (.error (.plain "Request aborted"), st')
      else
        let st'' : SvcSt := { st' with t := st'.t + 1, events := st'.events ++ [.pause] }
        if env.sig st''.t then (.error (.plain "Request aborted"), st'')
        else modelsLoop env site ms failures' st''
    | (.thrown msg, st') =>
      -- the catch of the failover loop: `QuotaError` never arises from
      -- `attemptGenerate`, and both remaining branches re-throw the error
      (.error (.plain msg), st')

/-- `editImage`: API-key guard, early abort check, data-url parse, then
failover across `MODEL_PREFERENCES`; exhaustion raises the aggregated
`QuotaError`. -/
def editImage (env : Env) (site : Nat) (ai : Option String)
    (base64ImageDataUrl prompt : String) (st : SvcSt) :
    Except RunErr String × SvcSt :=
  if ai.isNone then
    (.error (.plain "API key not configured. Please set your Gemini API key in the settings."), st)
  else if env.sig st.t then (.error (.plain "Request aborted"), st)
  else
    match parseDataUrl base64ImageDataUrl with
    | none => (.error (.plain "Invalid data URL format"), st)
    | some _ => modelsLoop env site MODEL_PREFERENCES [] st

/-- `setApiKey`: rejects an empty key, otherwise installs a new client,
replacing the previous state. -/
def setApiKey (apiKey : String) (ai : Option String) : Except String (Option String) :=
  if apiKey = "" then .error "API key is required" else .ok (some apiKey)

/-! ## Workflow runner: `executeWorkflow` (App.tsx lines 195-347) -/

/-- An uploaded input image (identity, file name, encoded payload). -/
structure ImageFile where
  id : String
  name : String
  dataUrl : String
deriving DecidableEq, Repr

/-- A finished output (`OutputImage` in types.ts, sans the random id). -/
structure OutputImage where
  originalImageId : String
  originalFileName : String
  dataUrl : String
deriving DecidableEq, Repr

/-- An execution record (`OperationLog`, sans random id and timestamp). -/
structure OperationLog where
  imageName : String
  nodeName : String
  success : Bool
  cost : ℚ
  credits : Nat
deriving DecidableEq, Repr

def SIMULATED_COST_PER_OP : ℚ := 25 / 10000
def SIMULATED_CREDITS_PER_OP : Nat := 1

/-- Which control path `executeWorkflow` ends on. -/
inductive RunStatus
  | validationFailed
  | noApiKey
  | noImages
  | noNodes
  | completed
  | cancelled
  | abortedBetweenImages
  | failed
deriving DecidableEq, Repr

/-- Final state of a run: the branch taken, accumulated outputs and log
records, the surfaced error (the `setError` state), and the backend call
trace. -/
structure RunResult where
  status : RunStatus
  outputs : List OutputImage
  logs : List OperationLog
  error : Option String
  calls : List Call
deriving DecidableEq, Repr

/-- Outcome of the inner per-step loop for one image: all steps done, or
the run halted early. -/
inductive StepsOut
  | ok (dataUrl : String) (site : Nat) (st : SvcSt)
      (outputs : List OutputImage) (logs : List OperationLog)
  | halt (r : RunResult)

/-- The inner loop of `executeWorkflow`: one image through the remaining
steps, threading the current data url. -/
def runSteps (env : Env) (ai : Option String) (image : ImageFile) :
    List WorkflowNode → Nat → String → SvcSt →
    List OutputImage → List OperationLog → StepsOut
  | [], site, url, st, outputs, logs => .ok url site st outputs logs
  | step :: restSteps, site, url, st, outputs, logs =>
    match editImage env site ai url step.prompt st with
    | (.ok r, st') =>
      let logs' := logs ++
        [⟨image.name, step.name, true, SIMULATED_COST_PER_OP, SIMULATED_CREDITS_PER_OP⟩]
      let outputs' :=
        if restSteps.isEmpty then outputs ++ [⟨image.id, image.name, r⟩] else outputs
      runSteps env ai image restSteps (site + 1) r st' outputs' logs'
    | (.error e, st') =>
      if e = .plain "Request aborted" then
        -- user abort: cancellation notice, no error, no log entry
        .halt ⟨.cancelled, outputs, logs, none, st'.calls⟩
      else
        match e with
        | .quota _ _ =>
          .halt ⟨.failed, outputs,
            logs ++ [⟨image.name, step.name, false, 0, 0⟩],
            some ("Quota exceeded while processing \"" ++ step.name ++ "\" for \"" ++
              image.name ++
              "\". Please check your Google Cloud billing and Gemini API quotas: " ++ helpUrl),
            st'.calls⟩
        | .plain msg =>
          .halt ⟨.failed, outputs,
            logs ++ [⟨image.name, step.name, false, 0, 0⟩],
            some ("Error on \"" ++ step.name ++ "\" for \"" ++ image.name ++ "\": " ++ msg),
            st'.calls⟩

/-- The outer loop of `executeWorkflow` over the input images, with the
between-images abort check whose throw escapes the inner catch. -/
def runImages (env : Env) (ai : Option String) (workflow : List WorkflowNode) :
    List ImageFile → Nat → SvcSt → List OutputImage → List OperationLog → RunResult
  | [], _, st, outputs, logs => ⟨.completed, outputs, logs, none, st.calls⟩
  | image :: restImages, site, st, outputs, logs =>
    if env.sig st.t then
      ⟨.abortedBetweenImages, outputs, logs, none, st.calls⟩
    else
      match runSteps env ai image workflow site image.dataUrl st outputs logs with
      | .halt r => r
      | .ok _ site' st' outputs' logs' =>
        runImages env ai workflow restImages site' st' outputs' logs'

/-- `executeWorkflow`: validation, precondition guards, then the batch
loop. -/
def executeWorkflow (nodes : List WorkflowNode) (conns : List Connection)
    (images : List ImageFile) (ai : Option String) (env : Env) : RunResult :=
  match getExecutionOrder nodes conns with
  | none =>
    ⟨.validationFailed, [], [],
      some "Workflow has a cycle or is disconnected. Please ensure all nodes form a single, valid flow from start to end.",
      []⟩
  | some workflow =>
    if ai.isNone then
      ⟨.noApiKey, [], [],
        some "Please configure your Gemini API key before running the workflow.", []⟩
    else if images.isEmpty then
      ⟨.noImages, [], [],
        some "Please upload at least one image to run the workflow.", []⟩
    else if workflow.isEmpty then
      ⟨.noNodes, [], [],
        some "Please add at least one node to the workflow.", []⟩
    else runImages env ai workflow images 0 ⟨0, [], []⟩ [] []

/-! ## Auxiliary definitions used by the statements and proofs -/

/-- Occurrences of `v` in a list of ids. -/
def cnt (l : List String) (v : String) : Nat :=
  l.countP (fun x => decide (x = v))

/-- Total adjacency occurrences of `v` over the sources listed in `P`. -/
def procP (adj : String → List String) (P : List String) (v : String) : Nat :=
  (P.map (fun u => cnt (adj u) v)).sum

/-- The edge list of a linear chain over the given step sequence. -/
def chainEdges : List WorkflowNode → List Connection
  | a :: b :: rest => ⟨a.id, b.id⟩ :: chainEdges (b :: rest)
  | _ => []

/-- `adj` realizes exactly the chain structure of the given sequence. -/
def chainAdjOn (adj : String → List String) : List WorkflowNode → Prop
  | [] => True
  | [a] => adj a.id = []
  | a :: b :: r => adj a.id = [b.id] ∧ chainAdjOn adj (b :: r)

/-- Is there a connection from `u` to `v`? -/
def edgeB (conns : List Connection) (u v : String) : Bool :=
  conns.any (fun c => c.fromNodeId = u && c.toNodeId = v)

/-- Does `l` describe a directed path starting at `u`? -/
def pathB (conns : List Connection) : String → List String → Bool
  | _, [] => true
  | u, v :: vs => edgeB conns u v && pathB conns v vs

/-- `C` lists, in order, the node ids of a directed cycle of the graph:
consecutive ids (cyclically) are joined by connections, and every id on the
cycle belongs to the step set. -/
def isCycle (conns : List Connection) (nodeIds : List String) : List String → Bool
  | [] => false
  | v :: vs => pathB conns v (vs ++ [v]) && (v :: vs).all (fun x => decide (x ∈ nodeIds))

/-- The rate-limit markers named by the specification (HTTP 429,
RESOURCE_EXHAUSTED, quota, too many requests; case-insensitive). -/
def specMarkers (msg : String) : Bool :=
  containsCI msg "429" || containsCI msg "RESOURCE_EXHAUSTED" ||
    containsCI msg "quota" || containsCI msg "too many requests"

/-! Concrete instances used by counterexamples and witnesses. -/

def nA : WorkflowNode := ⟨"A", "stepA", "pA"⟩
def nB : WorkflowNode := ⟨"B", "stepB", "pB"⟩
def nC : WorkflowNode := ⟨"C", "stepC", "pC"⟩

def img1 : ImageFile := ⟨"i1", "one.png", "data:image/png;base64,AAA"⟩
def img2 : ImageFile := ⟨"i2", "two.png", "data:image/png;base64,BBB"⟩

/-- Backend oracle that always succeeds, signal never set. -/
def envOk : Env := ⟨fun _ _ _ => .ok "image/png" "Q", fun _ => false⟩

/-- Backend oracle that always fails with a quota message, signal never
set. -/
def envAllQuota : Env := ⟨fun _ _ _ => .err "quota exceeded", fun _ => false⟩

/-- One model fails with a quota message on attempts 0 and 1 and succeeds
on attempt 2; signal never set. -/
def envRetrySucceed : Env :=
  ⟨fun _ _ a => if a ≤ 1 then .err "429 retry in 2s" else .ok "image/png" "XYZ",
   fun _ => false⟩

/-- Backend oracle that always fails with a non-quota message. -/
def envFatal : Env := ⟨fun _ _ _ => .err "invalid request", fun _ => false⟩

/-- Always-quota backend with the signal set from logical time 1 on. -/
def envCancel : Env := ⟨fun _ _ _ => .err "quota", fun t => decide (1 ≤ t)⟩

/-! ## Theorems -/

/-- C10: calling `editImage` while no API key is configured throws the
"API key not configured" error immediately — for every input data url
(even unparsable ones, so the check precedes parsing) and with the service
state returned untouched, so no backend call, retry, or failover happens;
and `setApiKey` rejects an empty key by throwing "API key is required". -/
theorem C10_editImage_requires_api_key :
    (∀ (env : Env) (site : Nat) (url prompt : String) (st : SvcSt),
      editImage env site none url prompt st =
        (.error (.plain "API key not configured. Please set your Gemini API key in the settings."),
          st)) ∧
    (∀ ai : Option String, setApiKey "" ai = .error "API key is required") := by
  exact ⟨fun _ _ _ _ _ => rfl, fun _ => rfl⟩

/-- C9, counterexample: on the graph with steps inserted in the order
A, B, C and connections inserted in the order A→C, A→B, the steps B and C
acquire zero in-degree simultaneously (both have in-degree 1, consumed
when A is emitted), yet the produced order is [A, C, B]: the tie is broken
by connection insertion order, not by the step insertion order, which
would give [A, B, C]. -/
theorem C9_counterexample :
    getExecutionOrder [nA, nB, nC] [⟨"A", "C"⟩, ⟨"A", "B"⟩] = some [nA, nC, nB] ∧
    buildInDegree [⟨"A", "C"⟩, ⟨"A", "B"⟩] "B" = 1 ∧
    buildInDegree [⟨"A", "C"⟩, ⟨"A", "B"⟩] "C" = 1 ∧
    [nA, nC, nB] ≠ [nA, nB, nC] := by
  refine ⟨rfl, rfl, rfl, ?_⟩
  decide

/-- C2, counterexample: a graph with a disconnected extra step does not
signal a validation error.  With steps A, B, C and the single connection
A→B, step C is disconnected from the chain, yet `getExecutionOrder`
returns the full order [A, C, B] instead of failing, and a workflow run on
this graph performs backend calls (three of them, one per step). -/
theorem C2_counterexample :
    getExecutionOrder [nA, nB, nC] [⟨"A", "B"⟩] = some [nA, nC, nB] ∧
    (executeWorkflow [nA, nB, nC] [⟨"A", "B"⟩] [img1] (some "k") envOk).calls.length = 3 ∧
    (executeWorkflow [nA, nB, nC] [⟨"A", "B"⟩] [img1] (some "k") envOk).status =
      RunStatus.completed := by
  exact ⟨rfl, rfl, rfl⟩

theorem prefixAt_append {p q l : List Char} (h : prefixAt (p ++ q) l = true) :
    prefixAt p l = true := by
  induction p generalizing l with
  | nil => rfl
  | cons c cs ih =>
    cases l with
    | nil => simp [prefixAt] at h
    | cons x xs =>
      simp only [List.cons_append, prefixAt, Bool.and_eq_true] at h ⊢
      exact ⟨h.1, ih h.2⟩

theorem hasSub_append_left {l p q : List Char} (h : hasSub l (p ++ q) = true) :
    hasSub l p = true := by
  induction l with
  | nil =>
    simp only [hasSub] at h ⊢
    cases p with
    | nil => rfl
    | cons c cs => simp [prefixAt] at h
  | cons c cs ih =>
    simp only [hasSub, Bool.or_eq_true] at h ⊢
    rcases h with h | h
    · exact Or.inl (prefixAt_append h)
    · exact Or.inr (ih h)

theorem quotaTest_eq_specMarkers (msg : String) : quotaTest msg = specMarkers msg := by
  have hqe : containsCI msg "Quota exceeded" = true → containsCI msg "quota" = true := by
    intro h
    have hsplit : lowerChars ("Quota exceeded".toList) =
        lowerChars ("quota".toList) ++ " exceeded".toList := by decide
    unfold containsCI at h ⊢
    rw [hsplit] at h
    exact hasSub_append_left h
  have htmr : containsCI msg "Too Many Requests" = containsCI msg "too many requests" := by
    unfold containsCI
    have : lowerChars ("Too Many Requests".toList) = lowerChars ("too many requests".toList) := by
      decide
    rw [this]
  have h : quotaTest msg = true ↔ specMarkers msg = true := by
    simp only [quotaTest, specMarkers, Bool.or_eq_true, htmr]
    constructor
    · rintro ((((h | h) | h) | h) | h)
      · exact Or.inl (Or.inr h)
      · exact Or.inl (Or.inl (Or.inl h))
      · exact Or.inr h
      · exact Or.inl (Or.inl (Or.inr h))
      · exact Or.inl (Or.inr (hqe h))
    · rintro (((h | h) | h) | h)
      · exact Or.inl (Or.inl (Or.inl (Or.inr h)))
      · exact Or.inl (Or.inr h)
      · exact Or.inl (Or.inl (Or.inl (Or.inl h)))
      · exact Or.inl (Or.inl (Or.inr h))
  cases hq : quotaTest msg <;> cases hs : specMarkers msg <;> simp_all


theorem attemptGenerate_st_mono (env : Env) (site : Nat) (m : String) :
    ∀ (fuel a : Nat) (st : SvcSt),
      ∃ (dt : Nat) (tlE : List Event) (tlC : List Call),
        (attemptGenerate env site m fuel a st).2 =
          ⟨st.t + dt, st.events ++ tlE, st.calls ++ tlC⟩ := by
  intro fuel
  induction fuel with
  | zero => exact fun a st => ⟨0, [], [], by simp [attemptGenerate]⟩
  | succ f ih =>
    intro a st
    by_cases h1 : env.sig st.t
    · exact ⟨0, [], [], by simp [attemptGenerate, h1]⟩
    · cases hapi : env.api site m a with
      | ok mt dt => exact ⟨1, [], [⟨site, m, a, st.t⟩], by simp [attemptGenerate, h1, hapi]⟩
      | err msg =>
        by_cases hq : quotaTest msg
        · by_cases hle : a + 1 ≤ MAX_RETRIES
          · set bo := backoffOf msg (a + 1) with hbo
            by_cases h2 : env.sig (st.t + 1)
            · exact ⟨1, [.retry (a + 1) bo m], [⟨site, m, a, st.t⟩],
                by simp [attemptGenerate, h1, hapi, hq, hle, h2, hbo]⟩
            · by_cases h3 : env.sig (st.t + 2)
              · exact ⟨2, [.retry (a + 1) bo m, .sleep bo], [⟨site, m, a, st.t⟩],
                  by simp [attemptGenerate, h1, hapi, hq, hle, h2, h3, hbo]⟩
              · obtain ⟨dt, tlE, tlC, hrec⟩ := ih (a + 1)
                  ⟨st.t + 2, st.events ++ [.retry (a + 1) bo m, .sleep bo],
                    st.calls ++ [⟨site, m, a, st.t⟩]⟩
                refine ⟨2 + dt, [.retry (a + 1) bo m, .sleep bo] ++ tlE,
                  [⟨site, m, a, st.t⟩] ++ tlC, ?_⟩
                simp only [attemptGenerate, h1, hapi, hq, hle, h2, h3, hbo,
                  if_true, if_false]
                simp only [hbo] at hrec
                simp [hrec]
                omega
          · exact ⟨1, [], [⟨site, m, a, st.t⟩],
              by simp [attemptGenerate, h1, hapi, hq, hle]⟩
        · exact ⟨1, [], [⟨site, m, a, st.t⟩], by simp [attemptGenerate, h1, hapi, hq]⟩


/-- C5: with a single backend whose call fails with a quota-marker error on
attempts 1 and 2 and succeeds on attempt 3, `attemptGenerate` returns
success after exactly 2 retries: exactly three calls are issued, and the
`onRetry` callback fires exactly twice, each time before the corresponding
sleep (the event list interleaves them in order), carrying the attempt
number, the computed delay, and the model identity. -/
theorem C5_retry_then_success (env : Env) (site : Nat) (m q0 q1 mt dt : String)
    (t : Nat) (ev : List Event) (cs : List Call)
    (hsig : ∀ u, env.sig u = false)
    (h0 : env.api site m 0 = .err q0) (hq0 : quotaTest q0 = true)
    (h1 : env.api site m 1 = .err q1) (hq1 : quotaTest q1 = true)
    (h2 : env.api site m 2 = .ok mt dt) :
    attemptGenerate env site m (MAX_RETRIES + 1) 0 ⟨t, ev, cs⟩ =
      (.success ("data:" ++ mt ++ ";base64," ++ dt),
        ⟨t + 5,
         ev ++ [.retry 1 (backoffOf q0 1) m, .sleep (backoffOf q0 1),
                .retry 2 (backoffOf q1 2) m, .sleep (backoffOf q1 2)],
         cs ++ [⟨site, m, 0, t⟩, ⟨site, m, 1, t + 2⟩, ⟨site, m, 2, t + 4⟩]⟩) := by
  simp [attemptGenerate, hsig, h0, hq0, h1, hq1, h2, MAX_RETRIES]


theorem modelsLoop_st_mono (env : Env) (site : Nat) :
    ∀ (models : List String) (failures : List (String × String)) (st : SvcSt),
      ∃ (dt : Nat) (tlE : List Event) (tlC : List Call),
        (modelsLoop env site models failures st).2 =
          ⟨st.t + dt, st.events ++ tlE, st.calls ++ tlC⟩ := by
  intro models
  induction models with
  | nil => exact fun failures st => ⟨0, [], [], by simp [modelsLoop]⟩
  | cons m ms ih =>
    intro failures st
    obtain ⟨dt, tlE, tlC, hst⟩ := attemptGenerate_st_mono env site m (MAX_RETRIES + 1) 0 st
    rcases hgen : attemptGenerate env site m (MAX_RETRIES + 1) 0 st with ⟨out, st1⟩
    rw [hgen] at hst
    simp only at hst
    subst hst
    cases out with
    | success r =>
      by_cases hr : r = ""
      · by_cases h1 : env.sig (st.t + dt)
        · exact ⟨dt, tlE, tlC, by simp [modelsLoop, hgen, hr, h1]⟩
        · by_cases h2 : env.sig (st.t + dt + 1)
          · refine ⟨dt + 1, tlE ++ [.pause], tlC, ?_⟩
            simp only [modelsLoop, hgen]
            simp only [hr, ite_true, h1, ite_false, if_true, if_false, h2, Bool.false_eq_true]
            simp [Nat.add_assoc]
          · obtain ⟨dt2, tlE2, tlC2, h3⟩ := ih
              (failures ++ [(m, "quota_or_rate_limit_or_no_result")])
              ⟨st.t + dt + 1, st.events ++ tlE ++ [.pause], st.calls ++ tlC⟩
            simp only at h3
            refine ⟨dt + 1 + dt2, tlE ++ [.pause] ++ tlE2, tlC ++ tlC2, ?_⟩
            simp only [modelsLoop, hgen]
            simp only [hr, ite_true, h1, ite_false, if_true, if_false, h2, Bool.false_eq_true]
            rw [h3]
            simp [Nat.add_assoc, List.append_assoc]
      · exact ⟨dt, tlE, tlC, by simp [modelsLoop, hgen, hr]⟩
    | quotaFail =>
      by_cases h1 : env.sig (st.t + dt)
      · exact ⟨dt, tlE, tlC, by simp [modelsLoop, hgen, h1]⟩
      · by_cases h2 : env.sig (st.t + dt + 1)
        · refine ⟨dt + 1, tlE ++ [.pause], tlC, ?_⟩
          simp only [modelsLoop, hgen]
          simp only [h1, ite_false, if_true, if_false, h2, ite_true, Bool.false_eq_true]
          simp [Nat.add_assoc]
        · obtain ⟨dt2, tlE2, tlC2, h3⟩ := ih
            (failures ++ [(m, "quota_or_rate_limit_or_no_result")])
            ⟨st.t + dt + 1, st.events ++ tlE ++ [.pause], st.calls ++ tlC⟩
          simp only at h3
          refine ⟨dt + 1 + dt2, tlE ++ [.pause] ++ tlE2, tlC ++ tlC2, ?_⟩
          simp only [modelsLoop, hgen]
          simp only [h1, ite_false, if_true, if_false, h2, ite_true, Bool.false_eq_true]
          rw [h3]
          simp [Nat.add_assoc, List.append_assoc]
    | thrown msg => exact ⟨dt, tlE, tlC, by simp [modelsLoop, hgen]⟩


theorem attemptGenerate_second_attempt (env : Env) (site : Nat) (m msg : String)
    (t : Nat) (ev : List Event) (cs : List Call)
    (hsig : ∀ u, env.sig u = false)
    (h0 : env.api site m 0 = .err msg) (hq : quotaTest msg = true) :
    ∃ tl, (attemptGenerate env site m (MAX_RETRIES + 1) 0 ⟨t, ev, cs⟩).2.calls =
      cs ++ [⟨site, m, 0, t⟩, ⟨site, m, 1, t + 2⟩] ++ tl := by
  have hstep : attemptGenerate env site m (MAX_RETRIES + 1) 0 ⟨t, ev, cs⟩ =
      attemptGenerate env site m MAX_RETRIES 1
        ⟨t + 2,
         ev ++ [.retry 1 (backoffOf msg 1) m, .sleep (backoffOf msg 1)],
         cs ++ [⟨site, m, 0, t⟩]⟩ := by
    simp [attemptGenerate, hsig, h0, hq, MAX_RETRIES]
  rw [hstep]
  cases hapi : env.api site m 1 with
  | ok mt dt =>
    refine ⟨[], ?_⟩
    simp [attemptGenerate, hsig, hapi, MAX_RETRIES]
  | err msg1 =>
    by_cases hq1 : quotaTest msg1
    · obtain ⟨dt2, tlE2, tlC2, h3⟩ := attemptGenerate_st_mono env site m 2 2
        ⟨t + 4,
         (ev ++ [.retry 1 (backoffOf msg 1) m, .sleep (backoffOf msg 1)]) ++
           [.retry 2 (backoffOf msg1 2) m, .sleep (backoffOf msg1 2)],
         (cs ++ [⟨site, m, 0, t⟩]) ++ [⟨site, m, 1, t + 2⟩]⟩
      simp only at h3
      refine ⟨tlC2, ?_⟩
      have hstep2 : attemptGenerate env site m MAX_RETRIES 1
          ⟨t + 2,
           ev ++ [.retry 1 (backoffOf msg 1) m, .sleep (backoffOf msg 1)],
           cs ++ [⟨site, m, 0, t⟩]⟩ =
          attemptGenerate env site m 2 2
            ⟨t + 4,
             (ev ++ [.retry 1 (backoffOf msg 1) m, .sleep (backoffOf msg 1)]) ++
               [.retry 2 (backoffOf msg1 2) m, .sleep (backoffOf msg1 2)],
             (cs ++ [⟨site, m, 0, t⟩]) ++ [⟨site, m, 1, t + 2⟩]⟩ := by
        simp [attemptGenerate, hsig, hapi, hq1, MAX_RETRIES]
      rw [hstep2, h3]
      simp
    · refine ⟨[], ?_⟩
      simp [attemptGenerate, hsig, hapi, hq1, MAX_RETRIES]


theorem modelsLoop_calls_extend (env : Env) (site : Nat) (m : String)
    (ms : List String) (failures : List (String × String)) (st : SvcSt) :
    ∃ tl, (modelsLoop env site (m :: ms) failures st).2.calls =
      (attemptGenerate env site m (MAX_RETRIES + 1) 0 st).2.calls ++ tl := by
  rcases hgen : attemptGenerate env site m (MAX_RETRIES + 1) 0 st with ⟨out, st1⟩
  cases out with
  | success r =>
    by_cases hr : r = ""
    · by_cases h1 : env.sig st1.t
      · exact ⟨[], by simp [modelsLoop, hgen, hr, h1]⟩
      · by_cases h2 : env.sig (st1.t + 1)
        · exact ⟨[], by simp [modelsLoop, hgen, hr, h1, h2]⟩
        · obtain ⟨dt2, tlE2, tlC2, h3⟩ := modelsLoop_st_mono env site ms
            (failures ++ [(m, "quota_or_rate_limit_or_no_result")])
            ⟨st1.t + 1, st1.events ++ [.pause], st1.calls⟩
          simp only at h3
          refine ⟨tlC2, ?_⟩
          simp only [modelsLoop, hgen]
          simp only [hr, ite_true, h1, h2, Bool.false_eq_true, ite_false, if_true, if_false]
          rw [h3]
    · exact ⟨[], by simp [modelsLoop, hgen, hr]⟩
  | quotaFail =>
    by_cases h1 : env.sig st1.t
    · exact ⟨[], by simp [modelsLoop, hgen, h1]⟩
    · by_cases h2 : env.sig (st1.t + 1)
      · exact ⟨[], by simp [modelsLoop, hgen, h1, h2]⟩
      · obtain ⟨dt2, tlE2, tlC2, h3⟩ := modelsLoop_st_mono env site ms
          (failures ++ [(m, "quota_or_rate_limit_or_no_result")])
          ⟨st1.t + 1, st1.events ++ [.pause], st1.calls⟩
        simp only at h3
        refine ⟨tlC2, ?_⟩
        simp only [modelsLoop, hgen]
        simp only [h1, h2, Bool.false_eq_true, ite_false, if_true, if_false]
        rw [h3]
  | thrown msg => exact ⟨[], by simp [modelsLoop, hgen]⟩


/-- C7: an error thrown during a transform call is retryable if and only
if its message matches a rate-limit/quota marker (429, RESOURCE_EXHAUSTED,
quota, too many requests, case-insensitively; the source classifier is
exactly this test).  A non-matching error is propagated immediately as a
fatal error wrapped as "AI processing failed: ...": exactly one backend
call is made, with no retry on that backend and no attempt on any other
backend.  A matching error is treated as retryable: a second attempt on
the same backend is issued. -/
theorem C7_quota_marker_classification (env : Env) (site : Nat) (key url prompt msg : String)
    (t : Nat) (ev : List Event) (cs : List Call)
    (hsig : ∀ u, env.sig u = false)
    (hurl : (parseDataUrl url).isSome = true)
    (h0 : env.api site "gemini-2.0-flash-preview-image-generation" 0 = .err msg) :
    quotaTest msg = specMarkers msg ∧
    (specMarkers msg = false →
      editImage env site (some key) url prompt ⟨t, ev, cs⟩ =
        (.error (.plain ("AI processing failed: " ++ msg)),
         ⟨t + 1, ev, cs ++ [⟨site, "gemini-2.0-flash-preview-image-generation", 0, t⟩]⟩)) ∧
    (specMarkers msg = true →
      ∃ tl, (editImage env site (some key) url prompt ⟨t, ev, cs⟩).2.calls =
        cs ++ [⟨site, "gemini-2.0-flash-preview-image-generation", 0, t⟩,
               ⟨site, "gemini-2.0-flash-preview-image-generation", 1, t + 2⟩] ++ tl) := by
  obtain ⟨p, hp⟩ := Option.isSome_iff_exists.mp hurl
  have hedit : editImage env site (some key) url prompt ⟨t, ev, cs⟩ =
      modelsLoop env site MODEL_PREFERENCES [] ⟨t, ev, cs⟩ := by
    simp [editImage, hsig, hp]
  refine ⟨quotaTest_eq_specMarkers msg, ?_, ?_⟩
  · intro hm
    have hq : quotaTest msg = false := by rw [quotaTest_eq_specMarkers, hm]
    rw [hedit]
    show modelsLoop env site MODEL_PREFERENCES [] ⟨t, ev, cs⟩ = _
    rw [show MODEL_PREFERENCES = "gemini-2.0-flash-preview-image-generation" ::
        ["gemini-2.5-flash-image-preview", "gemini-2.1-image-preview",
         "gemini-1.5-preview-image"] from rfl]
    simp [modelsLoop, attemptGenerate, hsig, h0, hq]
  · intro hm
    have hq : quotaTest msg = true := by rw [quotaTest_eq_specMarkers, hm]
    rw [hedit]
    obtain ⟨tl1, h1⟩ := attemptGenerate_second_attempt env site
      "gemini-2.0-flash-preview-image-generation" msg t ev cs hsig h0 hq
    obtain ⟨tl2, h2⟩ := modelsLoop_calls_extend env site
      "gemini-2.0-flash-preview-image-generation"
      ["gemini-2.5-flash-image-preview", "gemini-2.1-image-preview",
       "gemini-1.5-preview-image"] [] ⟨t, ev, cs⟩
    refine ⟨tl1 ++ tl2, ?_⟩
    have : MODEL_PREFERENCES = "gemini-2.0-flash-preview-image-generation" ::
        ["gemini-2.5-flash-image-preview", "gemini-2.1-image-preview",
         "gemini-1.5-preview-image"] := rfl
    rw [this, h2, h1]
    simp


theorem attemptGenerate_allQuota (env : Env) (site : Nat) (m : String)
    (msgs : Nat → String) (t : Nat) (ev : List Event) (cs : List Call)
    (hsig : ∀ u, env.sig u = false)
    (hapi : ∀ a, env.api site m a = .err (msgs a))
    (hq : ∀ a, quotaTest (msgs a) = true) :
    attemptGenerate env site m (MAX_RETRIES + 1) 0 ⟨t, ev, cs⟩ =
      (.quotaFail,
        ⟨t + 7,
         ev ++ [.retry 1 (backoffOf (msgs 0) 1) m, .sleep (backoffOf (msgs 0) 1),
                .retry 2 (backoffOf (msgs 1) 2) m, .sleep (backoffOf (msgs 1) 2),
                .retry 3 (backoffOf (msgs 2) 3) m, .sleep (backoffOf (msgs 2) 3)],
         cs ++ [⟨site, m, 0, t⟩, ⟨site, m, 1, t + 2⟩, ⟨site, m, 2, t + 4⟩,
                ⟨site, m, 3, t + 6⟩]⟩) := by
  simp [attemptGenerate, hsig, hapi 0, hapi 1, hapi 2, hapi 3, hq 0, hq 1, hq 2, hq 3,
    MAX_RETRIES]

theorem modelsLoop_allQuota (env : Env) (site : Nat) (msgs : String → Nat → String)
    (hsig : ∀ u, env.sig u = false)
    (hapi : ∀ m a, env.api site m a = .err (msgs m a))
    (hq : ∀ m a, quotaTest (msgs m a) = true) :
    ∀ (models : List String) (failures : List (String × String)) (st : SvcSt),
      ∃ st', modelsLoop env site models failures st =
        (.error (.quota quotaMessage
          (failures ++ models.map (fun m => (m, "quota_or_rate_limit_or_no_result")))), st') ∧
        st'.calls.map (fun c => (c.site, c.model, c.attempt)) =
          st.calls.map (fun c => (c.site, c.model, c.attempt)) ++
            models.flatMap (fun m =>
              (List.range (MAX_RETRIES + 1)).map (fun a => (site, m, a))) := by
  intro models
  induction models with
  | nil => exact fun failures st => ⟨st, by simp [modelsLoop]⟩
  | cons m ms ih =>
    intro failures st
    rcases st with ⟨t, ev, cs⟩
    have hgen := attemptGenerate_allQuota env site m (msgs m) t ev cs hsig (hapi m) (hq m)
    obtain ⟨st', hloop, hcalls⟩ := ih (failures ++ [(m, "quota_or_rate_limit_or_no_result")])
      ⟨t + 8,
       (ev ++ [.retry 1 (backoffOf (msgs m 0) 1) m, .sleep (backoffOf (msgs m 0) 1),
               .retry 2 (backoffOf (msgs m 1) 2) m, .sleep (backoffOf (msgs m 1) 2),
               .retry 3 (backoffOf (msgs m 2) 3) m, .sleep (backoffOf (msgs m 2) 3)]) ++
         [.pause],
       cs ++ [⟨site, m, 0, t⟩, ⟨site, m, 1, t + 2⟩, ⟨site, m, 2, t + 4⟩, ⟨site, m, 3, t + 6⟩]⟩
    refine ⟨st', ?_, ?_⟩
    · rw [show modelsLoop env site (m :: ms) failures ⟨t, ev, cs⟩ =
          modelsLoop env site ms (failures ++ [(m, "quota_or_rate_limit_or_no_result")])
            ⟨t + 8,
             (ev ++ [.retry 1 (backoffOf (msgs m 0) 1) m, .sleep (backoffOf (msgs m 0) 1),
                     .retry 2 (backoffOf (msgs m 1) 2) m, .sleep (backoffOf (msgs m 1) 2),
                     .retry 3 (backoffOf (msgs m 2) 3) m, .sleep (backoffOf (msgs m 2) 3)]) ++
               [.pause],
             cs ++ [⟨site, m, 0, t⟩, ⟨site, m, 1, t + 2⟩, ⟨site, m, 2, t + 4⟩,
                    ⟨site, m, 3, t + 6⟩]⟩ from by
        simp [modelsLoop, hgen, hsig]]
      rw [hloop]
      simp
    · rw [hcalls]
      simp [List.flatMap_cons, MAX_RETRIES, List.range_succ]


/-- C4: when every attempt on every backend fails with a quota-marker
error, `editImage` tries each backend of the fixed preference order in
turn, exhausting all `MAX_RETRIES + 1 = 4` attempts (3 retries) on each
before moving to the next, and finally raises the single aggregated
`QuotaError` whose details name every failed backend — not any other
error. -/
theorem C4_quota_failover_aggregated (env : Env) (site : Nat) (key url prompt : String)
    (t : Nat) (ev : List Event) (cs : List Call) (msgs : String → Nat → String)
    (hsig : ∀ u, env.sig u = false)
    (hurl : (parseDataUrl url).isSome = true)
    (hapi : ∀ m a, env.api site m a = .err (msgs m a))
    (hq : ∀ m a, quotaTest (msgs m a) = true) :
    ∃ st',
      editImage env site (some key) url prompt ⟨t, ev, cs⟩ =
        (.error (.quota quotaMessage
          (MODEL_PREFERENCES.map (fun m => (m, "quota_or_rate_limit_or_no_result")))), st') ∧
      st'.calls.map (fun c => (c.site, c.model, c.attempt)) =
        cs.map (fun c => (c.site, c.model, c.attempt)) ++
          MODEL_PREFERENCES.flatMap (fun m =>
            (List.range (MAX_RETRIES + 1)).map (fun a => (site, m, a))) := by
  obtain ⟨p, hp⟩ := Option.isSome_iff_exists.mp hurl
  obtain ⟨st', hloop, hcalls⟩ := modelsLoop_allQuota env site msgs hsig hapi hq
    MODEL_PREFERENCES [] ⟨t, ev, cs⟩
  refine ⟨st', ?_, hcalls⟩
  rw [show editImage env site (some key) url prompt ⟨t, ev, cs⟩ =
      modelsLoop env site MODEL_PREFERENCES [] ⟨t, ev, cs⟩ from by
    simp [editImage, hsig, hp]]
  rw [hloop]
  simp

/-- C6: the delay used before the n-th retry (n = attempt + 1 ≤ 3) of a
retryable error is emitted with the retry notification and the sleep; it
equals the server-suggested delay in rounded milliseconds whenever the
error text yields one (pattern "retry in N(.N)s" or the structured
retryDelay-seconds field, as embedded in `suggestedDelay`), and otherwise
equals `min(1000 * 2^(n-1), 30000)` milliseconds. -/
theorem C6_retry_delay (env : Env) (site : Nat) (m msg : String) (a f : Nat) (st : SvcSt)
    (hsig : ∀ u, env.sig u = false)
    (ha : env.api site m a = .err msg) (hq : quotaTest msg = true)
    (hle : a + 1 ≤ MAX_RETRIES) :
    (∃ out st' tlE,
      attemptGenerate env site m (f + 1) a st = (out, st') ∧
      st'.events = st.events ++
        [.retry (a + 1) (backoffOf msg (a + 1)) m, .sleep (backoffOf msg (a + 1))] ++ tlE) ∧
    (∀ d, suggestedDelay msg = some (some d) → backoffOf msg (a + 1) = some d) ∧
    (suggestedDelay msg = none →
      backoffOf msg (a + 1) = some (min (INITIAL_DELAY_MS * 2 ^ a) MAX_DELAY_MS)) := by
  refine ⟨?_, ?_, ?_⟩
  · rcases st with ⟨t, ev, cs⟩
    have hstep : attemptGenerate env site m (f + 1) a ⟨t, ev, cs⟩ =
        attemptGenerate env site m f (a + 1)
          ⟨t + 2,
           (ev ++ [.retry (a + 1) (backoffOf msg (a + 1)) m]) ++
             [.sleep (backoffOf msg (a + 1))],
           cs ++ [⟨site, m, a, t⟩]⟩ := by
      simp [attemptGenerate, hsig, ha, hq, hle]
    obtain ⟨dt, tlE, tlC, h2⟩ := attemptGenerate_st_mono env site m f (a + 1)
      ⟨t + 2,
       (ev ++ [.retry (a + 1) (backoffOf msg (a + 1)) m]) ++
         [.sleep (backoffOf msg (a + 1))],
       cs ++ [⟨site, m, a, t⟩]⟩
    rcases hres : attemptGenerate env site m f (a + 1)
      ⟨t + 2,
       (ev ++ [.retry (a + 1) (backoffOf msg (a + 1)) m]) ++
         [.sleep (backoffOf msg (a + 1))],
       cs ++ [⟨site, m, a, t⟩]⟩ with ⟨out, st'⟩
    rw [hres] at h2
    simp only at h2
    refine ⟨out, st', tlE, by rw [hstep, hres], ?_⟩
    rw [h2]
    simp
  · intro d h
    simp [backoffOf, h]
  · intro h
    simp [backoffOf, h]

/-- Witness for C5 at a concrete backend: quota errors suggesting a 2 s
delay on attempts 1 and 2, success on attempt 3. -/
theorem C5_witness :
    attemptGenerate envRetrySucceed 0 "m" (MAX_RETRIES + 1) 0 ⟨0, [], []⟩ =
      (.success "data:image/png;base64,XYZ",
        ⟨5, [.retry 1 (some 2000) "m", .sleep (some 2000),
             .retry 2 (some 2000) "m", .sleep (some 2000)],
         [⟨0, "m", 0, 0⟩, ⟨0, "m", 1, 2⟩, ⟨0, "m", 2, 4⟩]⟩) := by
  have h := C5_retry_then_success envRetrySucceed 0 "m" "429 retry in 2s" "429 retry in 2s"
    "image/png" "XYZ" 0 [] [] (fun u => rfl) rfl (by decide) rfl (by decide) rfl
  simpa using h

/-- Witness for C7 at a concrete non-quota error. -/
theorem C7_witness :
    editImage envFatal 0 (some "k") "data:image/png;base64,AAA" "p" ⟨0, [], []⟩ =
      (.error (.plain ("AI processing failed: " ++ "invalid request")),
       ⟨1, [], [⟨0, "gemini-2.0-flash-preview-image-generation", 0, 0⟩]⟩) := by
  have h := C7_quota_marker_classification envFatal 0 "k" "data:image/png;base64,AAA" "p"
    "invalid request" 0 [] [] (fun u => rfl) rfl rfl
  simpa using h.2.1 (by decide)

/-- Witness for C4 at a concrete always-quota backend. -/
theorem C4_witness :
    ∃ st',
      editImage envAllQuota 0 (some "k") "data:image/png;base64,AAA" "p" ⟨0, [], []⟩ =
        (.error (.quota quotaMessage
          (MODEL_PREFERENCES.map (fun m => (m, "quota_or_rate_limit_or_no_result")))), st') ∧
      st'.calls.map (fun c => (c.site, c.model, c.attempt)) =
        MODEL_PREFERENCES.flatMap (fun m =>
          (List.range (MAX_RETRIES + 1)).map (fun a => ((0 : Nat), m, a))) := by
  have hq : quotaTest "quota exceeded" = true := by decide
  have h := C4_quota_failover_aggregated envAllQuota 0 "k" "data:image/png;base64,AAA" "p"
    0 [] [] (fun _ _ => "quota exceeded") (fun u => rfl) rfl (fun m a => rfl)
    (fun m a => hq)
  simpa using h

/-- Witness for C6 at a concrete quota error without a suggested delay:
the exponential backoff branch applies. -/
theorem C6_witness :
    (∃ out st' tlE,
      attemptGenerate envAllQuota 0 "m" (3 + 1) 0 ⟨0, [], []⟩ = (out, st') ∧
      st'.events = ([] : List Event) ++
        [.retry 1 (backoffOf "quota exceeded" 1) "m",
         .sleep (backoffOf "quota exceeded" 1)] ++ tlE) ∧
    backoffOf "quota exceeded" 1 = some (min (INITIAL_DELAY_MS * 2 ^ 0) MAX_DELAY_MS) := by
  have h := C6_retry_delay envAllQuota 0 "m" "quota exceeded" 0 3 ⟨0, [], []⟩
    (fun u => rfl) rfl (by decide) (by decide)
  exact ⟨h.1, h.2.2 rfl⟩


theorem buildInDegree_foldAux (conns : List Connection) :
    ∀ (ind : String → Nat) (v : String),
      (conns.foldl
        (fun ind c => fun k => if k = c.toNodeId then ind k + 1 else ind k) ind) v =
      ind v + conns.countP (fun c => decide (c.toNodeId = v)) := by
  induction conns with
  | nil => intro ind v; simp
  | cons c cs ih =>
    intro ind v
    simp only [List.foldl_cons, ih, List.countP_cons]
    by_cases h : v = c.toNodeId
    · simp [h]
      omega
    · have h2 : ¬(c.toNodeId = v) := fun hh => h hh.symm
      simp [h, h2]

theorem buildInDegree_eq (conns : List Connection) (v : String) :
    buildInDegree conns v = conns.countP (fun c => decide (c.toNodeId = v)) := by
  unfold buildInDegree
  rw [buildInDegree_foldAux]
  simp

theorem buildAdj_foldAux (nodeIds : List String) (conns : List Connection) :
    ∀ (f : String → List String) (u : String),
      (conns.foldl
        (fun adj c =>
          if c.fromNodeId ∈ nodeIds then
            fun k => if k = c.fromNodeId then adj k ++ [c.toNodeId] else adj k
          else adj) f) u =
      f u ++ (conns.filter
        (fun c => decide (c.fromNodeId = u) && decide (c.fromNodeId ∈ nodeIds))).map
          (·.toNodeId) := by
  induction conns with
  | nil => simp
  | cons c cs ih =>
    intro f u
    simp only [List.foldl_cons]
    by_cases hm : c.fromNodeId ∈ nodeIds
    · rw [if_pos hm, ih]
      by_cases he : c.fromNodeId = u
      · subst he
        simp [hm, List.filter_cons]
      · have : ¬(u = c.fromNodeId) := fun hh => he hh.symm
        simp [List.filter_cons, he, this]
    · rw [if_neg hm, ih]
      simp [List.filter_cons, hm]

theorem buildAdj_eq (nodeIds : List String) (conns : List Connection) (u : String) :
    buildAdj nodeIds conns u =
      (conns.filter
        (fun c => decide (c.fromNodeId = u) && decide (c.fromNodeId ∈ nodeIds))).map
          (·.toNodeId) := by
  unfold buildAdj
  rw [buildAdj_foldAux]
  simp

theorem find_by_id (l : List WorkflowNode) (hnd : (l.map (·.id)).Nodup) :
    ∀ n ∈ l, l.find? (fun x => decide (x.id = n.id)) = some n := by
  induction l with
  | nil => intro n h; cases h
  | cons x xs ih =>
    intro n hn
    rcases List.mem_cons.mp hn with h | h
    · subst h
      simp [List.find?]
    · have hnd2 : (xs.map (·.id)).Nodup := (List.nodup_cons.mp hnd).2
      have hx : x.id ∉ xs.map (·.id) := (List.nodup_cons.mp hnd).1
      have hne : ¬(x.id = n.id) := by
        intro he
        exact hx (he ▸ List.mem_map_of_mem (·.id) h)
      simp [List.find?, hne, ih hnd2 n h]

theorem nodeMapFind_eq (nodes : List WorkflowNode)
    (hnd : (nodes.map (·.id)).Nodup) (n : WorkflowNode) (hn : n ∈ nodes) :
    nodeMapFind nodes n.id = some n := by
  unfold nodeMapFind
  have hnd2 : (nodes.reverse.map (·.id)).Nodup := by
    rw [List.map_reverse]
    exact List.nodup_reverse.mpr hnd
  exact find_by_id nodes.reverse hnd2 n (List.mem_reverse.mpr hn)


theorem chainEdges_countP_to (l : List WorkflowNode) (v : String) :
    (chainEdges l).countP (fun c => decide (c.toNodeId = v)) =
      l.tail.countP (fun x => decide (x.id = v)) := by
  induction l with
  | nil => rfl
  | cons a l ih =>
    cases l with
    | nil => rfl
    | cons b r =>
      simp only [chainEdges, List.countP_cons, List.tail_cons]
      rw [ih]
      simp [List.countP_cons]

theorem countP_id_zero (l : List WorkflowNode) (v : String)
    (h : v ∉ l.map (·.id)) :
    l.countP (fun x => decide (x.id = v)) = 0 := by
  rw [List.countP_eq_zero]
  intro x hx
  simp only [decide_eq_true_eq]
  intro he
  exact h (he ▸ List.mem_map_of_mem (·.id) hx)

theorem countP_id_one (l : List WorkflowNode) (n : WorkflowNode)
    (hnd : (l.map (·.id)).Nodup) (hn : n ∈ l) :
    l.countP (fun x => decide (x.id = n.id)) = 1 := by
  induction l with
  | nil => cases hn
  | cons x xs ih =>
    rcases List.mem_cons.mp hn with h | h
    · subst h
      rw [List.countP_cons]
      have hz : xs.countP (fun y => decide (y.id = n.id)) = 0 :=
        countP_id_zero xs n.id (List.nodup_cons.mp hnd).1
      simp [hz]
    · have hx : x.id ∉ xs.map (·.id) := (List.nodup_cons.mp hnd).1
      have hne : ¬(x.id = n.id) := by
        intro he
        exact hx (he ▸ List.mem_map_of_mem (·.id) h)
      rw [List.countP_cons]
      simp [hne, ih (List.nodup_cons.mp hnd).2 h]

theorem mem_chainEdges_from (l : List WorkflowNode) (c : Connection)
    (hc : c ∈ chainEdges l) : c.fromNodeId ∈ l.map (·.id) := by
  induction l with
  | nil => cases hc
  | cons a l ih =>
    cases l with
    | nil => cases hc
    | cons b r =>
      simp only [chainEdges, List.mem_cons] at hc
      rcases hc with h | h
      · subst h
        simp
      · have h2 := ih h
        simp only [List.map_cons, List.mem_cons] at h2 ⊢
        exact Or.inr h2

theorem chainEdges_get (l : List WorkflowNode) (c : Connection) (hc : c ∈ chainEdges l) :
    ∃ k, ∃ hk2 : k + 1 < l.length,
      c.fromNodeId = (l.get ⟨k, Nat.lt_of_succ_lt hk2⟩).id ∧
      c.toNodeId = (l.get ⟨k + 1, hk2⟩).id := by
  induction l generalizing c with
  | nil => cases hc
  | cons a l ih =>
    cases l with
    | nil => cases hc
    | cons b r =>
      simp only [chainEdges, List.mem_cons] at hc
      rcases hc with h | h
      · subst h
        exact ⟨0, by simp [List.length_cons], rfl, rfl⟩
      · obtain ⟨k, hk2, h1, h2⟩ := ih c h
        exact ⟨k + 1, by simpa using Nat.succ_lt_succ hk2, h1, h2⟩

theorem chainAdjOn_of_filter (adj : String → List String) :
    ∀ (perm : List WorkflowNode),
      (perm.map (·.id)).Nodup →
      (∀ u ∈ perm.map (·.id), adj u =
        ((chainEdges perm).filter (fun c => decide (c.fromNodeId = u))).map (·.toNodeId)) →
      chainAdjOn adj perm := by
  intro perm
  induction perm with
  | nil => intro _ _; trivial
  | cons a l ih =>
    intro hnd hadj
    cases l with
    | nil =>
      show adj a.id = []
      rw [hadj a.id (by simp)]
      rfl
    | cons b r =>
      constructor
      · rw [hadj a.id (by simp)]
        have hrest : (chainEdges (b :: r)).filter
            (fun c => decide (c.fromNodeId = a.id)) = [] := by
          rw [List.filter_eq_nil_iff]
          intro c hc
          simp only [decide_eq_true_eq]
          intro he
          have := mem_chainEdges_from (b :: r) c hc
          rw [he] at this
          exact (List.nodup_cons.mp hnd).1 this
        simp only [chainEdges, List.filter_cons]
        simp [hrest]
      · apply ih (List.nodup_cons.mp hnd).2
        intro u hu
        rw [hadj u (by rw [List.map_cons]; exact List.mem_cons_of_mem _ hu)]
        have hne : ¬(a.id = u) := by
          intro he
          refine (List.nodup_cons.mp hnd).1 ?_
          show a.id ∈ List.map (fun x => x.id) (b :: r)
          rw [he]
          exact hu
        simp only [chainEdges, List.filter_cons]
        simp [hne]


theorem chainAdjOn_buildAdj (perm : List WorkflowNode) (nodeIds : List String)
    (hnd : (perm.map (·.id)).Nodup)
    (hmem : ∀ u ∈ perm.map (·.id), u ∈ nodeIds) :
    chainAdjOn (buildAdj nodeIds (chainEdges perm)) perm := by
  apply chainAdjOn_of_filter _ perm hnd
  intro u hu
  rw [buildAdj_eq]
  congr 1
  apply List.filter_congr
  intro c hc
  by_cases he : c.fromNodeId = u
  · have hm2 : u ∈ nodeIds := hmem u hu
    have hm : c.fromNodeId ∈ nodeIds := by rw [he]; exact hm2
    simp [he, hm, hm2]
  · simp [he]

theorem id_inj (l : List WorkflowNode) (hnd : (l.map (·.id)).Nodup)
    (a b : WorkflowNode) (ha : a ∈ l) (hb : b ∈ l) (he : a.id = b.id) : a = b := by
  induction l with
  | nil => cases ha
  | cons x xs ih =>
    rcases List.mem_cons.mp ha with h1 | h1 <;> rcases List.mem_cons.mp hb with h2 | h2
    · rw [h1, h2]
    · exfalso
      subst h1
      refine (List.nodup_cons.mp hnd).1 ?_
      show a.id ∈ xs.map (·.id)
      rw [he]
      exact List.mem_map_of_mem (·.id) h2
    · exfalso
      subst h2
      refine (List.nodup_cons.mp hnd).1 ?_
      show b.id ∈ xs.map (·.id)
      rw [← he]
      exact List.mem_map_of_mem (·.id) h1
    · exact ih (List.nodup_cons.mp hnd).2 h1 h2

theorem filter_eq_singleton (l : List WorkflowNode) (a : WorkflowNode)
    (p : WorkflowNode → Bool)
    (hnd : (l.map (·.id)).Nodup) (ha : a ∈ l)
    (hp : ∀ x ∈ l, p x = true ↔ x = a) :
    l.filter p = [a] := by
  induction l with
  | nil => cases ha
  | cons x xs ih =>
    rcases List.mem_cons.mp ha with h | h
    · subst h
      have hx : p a = true := (hp a (by simp)).mpr rfl
      have hrest : xs.filter p = [] := by
        rw [List.filter_eq_nil_iff]
        intro y hy hpy
        have hya := (hp y (List.mem_cons_of_mem _ hy)).mp hpy
        subst hya
        exact absurd (List.mem_map_of_mem (·.id) hy) (List.nodup_cons.mp hnd).1
      simp [List.filter_cons, hx, hrest]
    · have hpx : ¬(p x = true) := by
        intro hpx
        have hxa := (hp x (by simp)).mp hpx
        subst hxa
        exact absurd (List.mem_map_of_mem (·.id) h) (List.nodup_cons.mp hnd).1
      simp only [List.filter_cons, hpx, if_false, Bool.false_eq_true, ite_false]
      exact ih (List.nodup_cons.mp hnd).2 h
        (fun y hy => hp y (List.mem_cons_of_mem _ hy))

theorem kahnLoop_chain (nodes : List WorkflowNode) (adj : String → List String) :
    ∀ (rest : List WorkflowNode) (f : Nat) (ind : String → Nat) (acc : List WorkflowNode),
      rest.length ≤ f →
      (rest.map (·.id)).Nodup →
      (∀ n ∈ rest, nodeMapFind nodes n.id = some n) →
      chainAdjOn adj rest →
      (∀ n ∈ rest.tail, ind n.id = 1) →
      kahnLoop nodes adj f
        (match rest with | [] => [] | a :: _ => [a.id]) ind acc = acc ++ rest := by
  intro rest
  induction rest with
  | nil =>
    intro f ind acc _ _ _ _ _
    cases f <;> simp [kahnLoop]
  | cons a rs ih =>
    intro f ind acc hlen hnd hlook hadj hind
    cases f with
    | zero => simp at hlen
    | succ f =>
      cases rs with
      | nil =>
        have hone : adj a.id = [] := hadj
        simp only [kahnLoop, hlook a (by simp), hone, processSuccs]
        cases f <;> simp [kahnLoop]
      | cons b rs =>
        have hone : adj a.id = [b.id] := hadj.1
        have hb1 : ind b.id = 1 := hind b (by simp)
        have hstep : kahnLoop nodes adj (f + 1) [a.id] ind acc =
            kahnLoop nodes adj f [b.id]
              (fun k => if k = b.id then 0 else ind k) (acc ++ [a]) := by
          simp [kahnLoop, hlook a (by simp), hone, processSuccs, hb1]
        rw [hstep]
        have hnd2 : ((b :: rs).map (·.id)).Nodup := (List.nodup_cons.mp hnd).2
        have hres := ih f (fun k => if k = b.id then 0 else ind k) (acc ++ [a])
          (by simpa using Nat.le_of_succ_le_succ hlen) hnd2
          (fun n hn => hlook n (List.mem_cons_of_mem _ hn)) hadj.2 ?_
        · rw [hres]
          simp
        · intro n hn
          have hb : b.id ∉ rs.map (·.id) := (List.nodup_cons.mp hnd2).1
          have hne : ¬(n.id = b.id) := by
            intro he
            refine hb ?_
            rw [← he]
            exact List.mem_map_of_mem (·.id) hn
          simp only [hne, if_false, ite_false]
          exact hind n (List.mem_cons_of_mem _ (by simpa using hn))


/-- C1: for every acyclic, connected single-chain graph — steps with
distinct ids whose connections are exactly the chain edges over some
ordering `perm` of the steps — `getExecutionOrder` returns an order that
is a permutation of all steps, whose length equals the step count, and in
which the source step of every connection appears strictly before its
target step (indeed it returns `perm` itself). -/
theorem C1_chain_topological_order (nodes perm : List WorkflowNode) (conns : List Connection)
    (hids : (nodes.map (·.id)).Nodup)
    (hperm : perm.Perm nodes)
    (hconn : conns = chainEdges perm) :
    ∃ out, getExecutionOrder nodes conns = some out ∧
      out.Perm nodes ∧ out.length = nodes.length ∧
      ∀ c ∈ conns, ∃ k, ∃ hk : k + 1 < out.length,
        (out.get ⟨k, Nat.lt_of_succ_lt hk⟩).id = c.fromNodeId ∧
        (out.get ⟨k + 1, hk⟩).id = c.toNodeId := by
  subst hconn
  have hpids : (perm.map (·.id)).Nodup := ((hperm.map (·.id)).nodup_iff).mpr hids
  have hlen : perm.length = nodes.length := hperm.length_eq
  have hmain : getExecutionOrder nodes (chainEdges perm) = some perm := by
    cases hperm2 : perm with
    | nil =>
      have hn0 : nodes = [] := by
        have h2 := hperm.symm
        rw [hperm2] at h2
        exact h2.eq_nil
      subst hn0
      rfl
    | cons ph pt =>
      subst hperm2
      have hn0 : ¬(nodes.length = 0) := by
        rw [← hlen]
        simp
      have hphn : ph ∈ nodes := hperm.subset (by simp)
      have hphid : ph.id ∉ pt.map (·.id) := (List.nodup_cons.mp hpids).1
      have hptids : (pt.map (·.id)).Nodup := (List.nodup_cons.mp hpids).2
      have hindeq : ∀ v, buildInDegree (chainEdges (ph :: pt)) v =
          pt.countP (fun x => decide (x.id = v)) := by
        intro v
        rw [buildInDegree_eq, chainEdges_countP_to]
        rfl
      have hseeds : nodes.filter
          (fun n => decide (buildInDegree (chainEdges (ph :: pt)) n.id = 0)) = [ph] := by
        apply filter_eq_singleton nodes ph _ hids hphn
        intro x hx
        simp only [decide_eq_true_eq]
        rw [hindeq]
        constructor
        · intro h0
          have hxperm : x ∈ ph :: pt := hperm.mem_iff.mpr hx
          rcases List.mem_cons.mp hxperm with h | h
          · exact h
          · exfalso
            have h2 := List.countP_eq_zero.mp h0
            have h3 := h2 x h
            simp at h3
        · intro he
          subst he
          rw [List.countP_eq_zero]
          intro y hy
          simp only [decide_eq_true_eq]
          intro hid
          exact hphid (hid ▸ List.mem_map_of_mem (·.id) hy)
      have hfuel : (ph :: pt).length ≤ nodes.length + (chainEdges (ph :: pt)).length + 1 := by
        rw [← hlen]
        omega
      have hindtail : ∀ n ∈ (ph :: pt).tail, buildInDegree (chainEdges (ph :: pt)) n.id = 1 := by
        intro n hn
        rw [hindeq]
        exact countP_id_one pt n hptids (by simpa using hn)
      have hloop := kahnLoop_chain nodes
        (buildAdj (nodes.map (·.id)) (chainEdges (ph :: pt))) (ph :: pt)
        (nodes.length + (chainEdges (ph :: pt)).length + 1)
        (buildInDegree (chainEdges (ph :: pt))) []
        hfuel hpids
        (fun n hn => nodeMapFind_eq nodes hids n (hperm.subset hn))
        (chainAdjOn_buildAdj (ph :: pt) (nodes.map (·.id)) hpids
          (fun u hu => ((hperm.map (·.id)).mem_iff).mp hu))
        hindtail
      rw [show (match ph :: pt with
            | [] => ([] : List String)
            | a :: _ => [a.id]) = [ph.id] from rfl] at hloop
      simp only [List.nil_append] at hloop
      simp only [getExecutionOrder, hn0, if_false, ite_false, hseeds]
      simp only [List.map_cons, List.map_nil]
      rw [hloop]
      simp [hlen]
  refine ⟨perm, hmain, hperm, hlen, ?_⟩
  intro c hc
  obtain ⟨k, hk2, h1, h2⟩ := chainEdges_get perm c hc
  exact ⟨k, hk2, h1.symm, h2.symm⟩


theorem processSuccs_queue (vs : List String) :
    ∀ (ind : String → Nat) (q r : List String),
      processSuccs vs ind (q ++ r) =
        ((processSuccs vs ind r).1, q ++ (processSuccs vs ind r).2) := by
  induction vs with
  | nil => intro ind q r; rfl
  | cons v vs ih =>
    intro ind q r
    simp only [processSuccs]
    by_cases hd : ind v - 1 = 0
    · simp only [hd, if_true, ite_true, List.append_assoc]
      exact ih _ q (r ++ [v])
    · simp only [hd, if_false, ite_false]
      exact ih _ q r

theorem kahnLoop_acc_mono (nodes : List WorkflowNode) (adj : String → List String) :
    ∀ (f : Nat) (q : List String) (ind : String → Nat) (acc : List WorkflowNode),
      ∃ tl, kahnLoop nodes adj f q ind acc = acc ++ tl := by
  intro f
  induction f with
  | zero => exact fun q ind acc => ⟨[], by simp [kahnLoop]⟩
  | succ f ih =>
    intro q ind acc
    cases q with
    | nil => exact ⟨[], by simp [kahnLoop]⟩
    | cons u rest =>
      cases hfind : nodeMapFind nodes u with
      | some n =>
        obtain ⟨tl, htl⟩ := ih (processSuccs (adj u) ind rest).2
          (processSuccs (adj u) ind rest).1 (acc ++ [n])
        exact ⟨[n] ++ tl, by simp [kahnLoop, hfind, htl]⟩
      | none =>
        obtain ⟨tl, htl⟩ := ih (processSuccs (adj u) ind rest).2
          (processSuccs (adj u) ind rest).1 acc
        exact ⟨tl, by simp [kahnLoop, hfind, htl]⟩

theorem kahnLoop_fifo (nodes : List WorkflowNode) (adj : String → List String) :
    ∀ (q1 : List String) (f : Nat) (q2 : List String) (ind : String → Nat)
      (acc : List WorkflowNode),
      ∃ q' ind', kahnLoop nodes adj (q1.length + f) (q1 ++ q2) ind acc =
        kahnLoop nodes adj f q' ind' (acc ++ q1.filterMap (nodeMapFind nodes)) := by
  intro q1
  induction q1 with
  | nil => exact fun f q2 ind acc => ⟨q2, ind, by simp⟩
  | cons u q1 ih =>
    intro f q2 ind acc
    have hfuel : (u :: q1).length + f = (q1.length + f) + 1 := by
      simp [List.length_cons]
      omega
    rw [hfuel]
    have hstep : kahnLoop nodes adj ((q1.length + f) + 1) ((u :: q1) ++ q2) ind acc =
        kahnLoop nodes adj (q1.length + f)
          (q1 ++ (processSuccs (adj u) ind q2).2)
          (processSuccs (adj u) ind q2).1
          (acc ++ [u].filterMap (nodeMapFind nodes)) := by
      simp only [List.cons_append, kahnLoop]
      simp only [List.append_eq]
      rw [processSuccs_queue]
      cases hfind : nodeMapFind nodes u <;> simp [hfind]
    rw [hstep]
    obtain ⟨q', ind', h⟩ := ih f (processSuccs (adj u) ind q2).2
      (processSuccs (adj u) ind q2).1 (acc ++ [u].filterMap (nodeMapFind nodes))
    refine ⟨q', ind', ?_⟩
    rw [h]
    congr 1
    rw [List.append_assoc]
    congr 1
    cases hfind : nodeMapFind nodes u <;> simp [List.filterMap_cons, hfind]

theorem filterMap_find_of_mem (nodes : List WorkflowNode) :
    ∀ (l : List WorkflowNode), (∀ n ∈ l, nodeMapFind nodes n.id = some n) →
      (l.map (·.id)).filterMap (nodeMapFind nodes) = l := by
  intro l
  induction l with
  | nil => intro _; rfl
  | cons x xs ih =>
    intro h
    simp only [List.map_cons, List.filterMap_cons, h x (by simp)]
    rw [ih (fun n hn => h n (List.mem_cons_of_mem _ hn))]


/-- C9 amended: `getExecutionOrder` is deterministic — the same unmodified
graph always yields the same sequence — and the initially zero-in-degree
steps form the head of the produced order in step insertion order (the
seed queue is the filter of the step list, consumed first by the FIFO
loop).  Ties that arise later are broken by connection insertion order,
as the counterexample shows, not by step insertion order. -/
theorem C9_deterministic_seed_order (nodes : List WorkflowNode) (conns : List Connection)
    (hids : (nodes.map (·.id)).Nodup) :
    (∀ nodes2 conns2, nodes2 = nodes → conns2 = conns →
      getExecutionOrder nodes2 conns2 = getExecutionOrder nodes conns) ∧
    ∀ out, getExecutionOrder nodes conns = some out →
      out.take (nodes.filter (fun n => decide (buildInDegree conns n.id = 0))).length =
        nodes.filter (fun n => decide (buildInDegree conns n.id = 0)) := by
  refine ⟨fun nodes2 conns2 h1 h2 => by rw [h1, h2], ?_⟩
  intro out hout
  by_cases hn0 : nodes.length = 0
  · have hnil : nodes = [] := List.length_eq_zero.mp hn0
    subst hnil
    simp only [getExecutionOrder, if_pos rfl] at hout
    simp at hout
    subst hout
    simp
  · set seeds := nodes.filter (fun n => decide (buildInDegree conns n.id = 0)) with hseeds
    have hle : seeds.length ≤ nodes.length := by
      rw [hseeds]
      exact List.length_filter_le _ _
    obtain ⟨f, hf⟩ : ∃ f, nodes.length + conns.length + 1 = (seeds.map (·.id)).length + f :=
      ⟨conns.length + 1 + (nodes.length - seeds.length), by simp; omega⟩
    have hout2 : kahnLoop nodes (buildAdj (nodes.map (·.id)) conns)
        (nodes.length + conns.length + 1) (seeds.map (·.id)) (buildInDegree conns) [] =
        out := by
      simp only [getExecutionOrder, hn0, if_false, ite_false] at hout
      rw [← hseeds] at hout
      by_cases hl : (kahnLoop nodes (buildAdj (nodes.map (·.id)) conns)
          (nodes.length + conns.length + 1) (seeds.map (·.id))
          (buildInDegree conns) []).length = nodes.length
      · rw [if_pos hl] at hout
        exact Option.some.inj hout
      · rw [if_neg hl] at hout
        cases hout
    rw [hf] at hout2
    obtain ⟨q', ind', hfifo⟩ := kahnLoop_fifo nodes (buildAdj (nodes.map (·.id)) conns)
      (seeds.map (·.id)) f [] (buildInDegree conns) []
    simp only [List.append_nil] at hfifo
    rw [hfifo] at hout2
    have hsf : (seeds.map (·.id)).filterMap (nodeMapFind nodes) = seeds := by
      apply filterMap_find_of_mem
      intro n hn
      exact nodeMapFind_eq nodes hids n (List.mem_of_mem_filter hn)
    rw [hsf] at hout2
    obtain ⟨tl, htl⟩ := kahnLoop_acc_mono nodes (buildAdj (nodes.map (·.id)) conns)
      f q' ind' ([] ++ seeds)
    rw [htl] at hout2
    simp only [List.nil_append] at hout2
    rw [← hout2]
    exact List.take_left seeds tl

/-- Witness for C1 on a concrete three-step chain A→B→C whose step list is
stored in a different order than the chain. -/
theorem C1_witness :
    ∃ out, getExecutionOrder [nB, nA, nC] [⟨"A", "B"⟩, ⟨"B", "C"⟩] = some out ∧
      out.Perm [nB, nA, nC] ∧ out.length = ([nB, nA, nC] : List WorkflowNode).length ∧
      ∀ c ∈ ([⟨"A", "B"⟩, ⟨"B", "C"⟩] : List Connection), ∃ k, ∃ hk : k + 1 < out.length,
        (out.get ⟨k, Nat.lt_of_succ_lt hk⟩).id = c.fromNodeId ∧
        (out.get ⟨k + 1, hk⟩).id = c.toNodeId :=
  C1_chain_topological_order [nB, nA, nC] [nA, nB, nC] [⟨"A", "B"⟩, ⟨"B", "C"⟩]
    (by decide) (by decide) rfl

/-- Witness for the amended C9 on the tie-breaking counterexample graph. -/
theorem C9_witness :
    (∀ nodes2 conns2, nodes2 = [nA, nB, nC] →
      conns2 = ([⟨"A", "C"⟩, ⟨"A", "B"⟩] : List Connection) →
      getExecutionOrder nodes2 conns2 =
        getExecutionOrder [nA, nB, nC] [⟨"A", "C"⟩, ⟨"A", "B"⟩]) ∧
    ∀ out, getExecutionOrder [nA, nB, nC] [⟨"A", "C"⟩, ⟨"A", "B"⟩] = some out →
      out.take ([nA, nB, nC].filter
        (fun n => decide (buildInDegree [⟨"A", "C"⟩, ⟨"A", "B"⟩] n.id = 0))).length =
        [nA, nB, nC].filter
          (fun n => decide (buildInDegree [⟨"A", "C"⟩, ⟨"A", "B"⟩] n.id = 0)) :=
  C9_deterministic_seed_order [nA, nB, nC] [⟨"A", "C"⟩, ⟨"A", "B"⟩] (by decide)


theorem cnt_append (l1 l2 : List String) (v : String) :
    cnt (l1 ++ l2) v = cnt l1 v + cnt l2 v := by
  unfold cnt
  rw [List.countP_append]

theorem cnt_cons_self (l : List String) (v : String) :
    1 ≤ cnt (v :: l) v := by
  unfold cnt
  rw [List.countP_cons]
  simp

theorem procP_append_one (adj : String → List String) (P : List String) (u v : String) :
    procP adj (P ++ [u]) v = procP adj P v + cnt (adj u) v := by
  unfold procP
  rw [List.map_append, List.sum_append]
  simp

theorem procP_cons (adj : String → List String) (P : List String) (u v : String) :
    procP adj (u :: P) v = cnt (adj u) v + procP adj P v := by
  unfold procP
  simp

theorem sum_map_add (S : List String) (f g : String → Nat) :
    (S.map (fun u => f u + g u)).sum = (S.map f).sum + (S.map g).sum := by
  induction S with
  | nil => rfl
  | cons u rest ih =>
    simp only [List.map_cons, List.sum_cons, ih]
    omega

theorem sum_indicator_le_one (S : List String) (w : String) (hnd : S.Nodup) :
    (S.map (fun u => if w = u then 1 else 0)).sum ≤ 1 := by
  induction S with
  | nil => simp
  | cons u rest ih =>
    simp only [List.map_cons, List.sum_cons]
    by_cases he : w = u
    · subst he
      have hz : (rest.map (fun u => if w = u then 1 else 0)).sum = 0 := by
        rw [List.sum_eq_zero]
        intro x hx
        obtain ⟨y, hy, hxy⟩ := List.mem_map.mp hx
        have hne : ¬(w = y) := by
          intro he2
          exact (List.nodup_cons.mp hnd).1 (he2 ▸ hy)
        simp [hne] at hxy
        omega
      simp [hz]
    · simp only [he, if_false, ite_false]
      simpa using ih (List.nodup_cons.mp hnd).2

theorem sum_countP_from_le (p : Connection → Bool) (f : Connection → String) :
    ∀ (conns : List Connection) (S : List String), S.Nodup →
      (S.map (fun u => conns.countP (fun c => decide (f c = u) && p c))).sum ≤
        conns.countP p := by
  intro conns
  induction conns with
  | nil =>
    intro S _
    simp [List.countP_nil]
  | cons c cs ih =>
    intro S hnd
    have hsplit : ∀ u : String,
        (c :: cs).countP (fun c2 => decide (f c2 = u) && p c2) =
        cs.countP (fun c2 => decide (f c2 = u) && p c2) +
          (if f c = u then (if p c then 1 else 0) else 0) := by
      intro u
      rw [List.countP_cons]
      by_cases h1 : f c = u <;> by_cases h2 : p c <;> simp [h1, h2]
    have hmapeq : (S.map (fun u => (c :: cs).countP (fun c2 => decide (f c2 = u) && p c2))).sum =
        (S.map (fun u => cs.countP (fun c2 => decide (f c2 = u) && p c2))).sum +
          (S.map (fun u => if f c = u then (if p c then 1 else 0) else 0)).sum := by
      rw [← sum_map_add]
      congr 1
      apply List.map_congr_left
      intro u _
      exact hsplit u
    rw [hmapeq, List.countP_cons]
    have hind : (S.map (fun u => if f c = u then (if p c then 1 else 0) else 0)).sum ≤
        (if p c then 1 else 0) := by
      by_cases h2 : p c
      · simp only [h2, if_true, ite_true]
        exact sum_indicator_le_one S (f c) hnd
      · simp [h2]
    have hih := ih S hnd
    omega

theorem cnt_adj_eq (nodeIds : List String) (conns : List Connection) (u v : String) :
    cnt (buildAdj nodeIds conns u) v =
      conns.countP (fun c =>
        decide (c.fromNodeId = u) &&
          (decide (c.fromNodeId ∈ nodeIds) && decide (c.toNodeId = v))) := by
  rw [buildAdj_eq]
  unfold cnt
  rw [List.countP_map, List.countP_filter]
  apply List.countP_congr
  intro c _
  by_cases h1 : c.fromNodeId = u <;> by_cases h2 : c.fromNodeId ∈ nodeIds <;>
    by_cases h3 : c.toNodeId = v <;> simp [h1, h2, h3]

theorem sumCnt_le (nodeIds : List String) (conns : List Connection)
    (S : List String) (hnd : S.Nodup) (v : String) :
    (S.map (fun u => cnt (buildAdj nodeIds conns u) v)).sum ≤ buildInDegree conns v := by
  have h1 : (S.map (fun u => cnt (buildAdj nodeIds conns u) v)).sum =
      (S.map (fun u => conns.countP (fun c =>
        decide (c.fromNodeId = u) &&
          (decide (c.fromNodeId ∈ nodeIds) && decide (c.toNodeId = v))))).sum := by
    congr 1
    apply List.map_congr_left
    intro u _
    exact cnt_adj_eq nodeIds conns u v
  rw [h1, buildInDegree_eq]
  calc (S.map (fun u => conns.countP (fun c =>
        decide (c.fromNodeId = u) &&
          (decide (c.fromNodeId ∈ nodeIds) && decide (c.toNodeId = v))))).sum
      ≤ conns.countP (fun c =>
          decide (c.fromNodeId ∈ nodeIds) && decide (c.toNodeId = v)) :=
        sum_countP_from_le
          (fun c => decide (c.fromNodeId ∈ nodeIds) && decide (c.toNodeId = v))
          (fun c => c.fromNodeId) conns S hnd
    _ ≤ conns.countP (fun c => decide (c.toNodeId = v)) := by
        apply List.countP_mono_left
        intro c _
        simp only [Bool.and_eq_true, decide_eq_true_eq]
        intro h
        simp [h.2]


theorem pathB_pred (conns : List Connection) :
    ∀ (l : List String) (u : String), pathB conns u l = true →
      ∀ w ∈ l, ∃ x, (x = u ∨ x ∈ l) ∧ edgeB conns x w = true := by
  intro l
  induction l with
  | nil => intro u _ w hw; cases hw
  | cons v vs ih =>
    intro u hp w hw
    simp only [pathB, Bool.and_eq_true] at hp
    rcases List.mem_cons.mp hw with h | h
    · exact ⟨u, Or.inl rfl, h ▸ hp.1⟩
    · obtain ⟨x, hx, he⟩ := ih v hp.2 w h
      rcases hx with hx | hx
      · exact ⟨x, Or.inr (by simp [hx]), he⟩
      · exact ⟨x, Or.inr (by simp [hx]), he⟩

theorem isCycle_mem_nodeIds (conns : List Connection) (nodeIds : List String)
    (C : List String) (h : isCycle conns nodeIds C = true) :
    ∀ v ∈ C, v ∈ nodeIds := by
  cases C with
  | nil => cases h
  | cons v vs =>
    intro w hw
    simp only [isCycle, Bool.and_eq_true, List.all_eq_true] at h
    have := h.2 w hw
    simpa using this

theorem isCycle_pred (conns : List Connection) (nodeIds : List String)
    (C : List String) (h : isCycle conns nodeIds C = true) :
    ∀ v ∈ C, ∃ u ∈ C, edgeB conns u v = true := by
  cases C with
  | nil => cases h
  | cons v vs =>
    intro w hw
    simp only [isCycle, Bool.and_eq_true] at h
    have hpath := h.1
    have hw2 : w ∈ vs ++ [v] := by
      rcases List.mem_cons.mp hw with h2 | h2
      · subst h2
        simp
      · exact List.mem_append_left _ h2
    obtain ⟨x, hx, he⟩ := pathB_pred conns (vs ++ [v]) v hpath w hw2
    refine ⟨x, ?_, he⟩
    rcases hx with hx | hx
    · simp [hx]
    · rcases List.mem_append.mp hx with h3 | h3
      · exact List.mem_cons_of_mem _ h3
      · simp at h3
        simp [h3]

theorem edgeB_cnt (nodeIds : List String) (conns : List Connection) (u v : String)
    (hu : u ∈ nodeIds) (he : edgeB conns u v = true) :
    1 ≤ cnt (buildAdj nodeIds conns u) v := by
  rw [cnt_adj_eq]
  apply List.countP_pos_iff.mpr
  simp only [edgeB, List.any_eq_true, Bool.and_eq_true, decide_eq_true_eq] at he
  obtain ⟨c, hc, h1, h2⟩ := he
  exact ⟨c, hc, by simp [h1, h2, hu]⟩


theorem cnt_singleton_self (v : String) : cnt [v] v = 1 := by
  unfold cnt
  simp

theorem cnt_singleton_ne (v w : String) (h : ¬(w = v)) : cnt [v] w = 0 := by
  unfold cnt
  simp
  intro he
  exact absurd he.symm h

theorem processSuccs_invariant (nodes : List WorkflowNode) (conns : List Connection)
    (C : List String)
    (hC : ∀ v ∈ C, ∃ u, u ∈ C ∧
      1 ≤ cnt (buildAdj (nodes.map (·.id)) conns u) v) :
    ∀ (rest done queue : List String) (ind : String → Nat) (P : List String) (u₀ : String),
      buildAdj (nodes.map (·.id)) conns u₀ = done ++ rest →
      (P ++ u₀ :: queue).Nodup →
      (∀ v, ind v + (procP (buildAdj (nodes.map (·.id)) conns) P v + cnt done v) =
        buildInDegree conns v) →
      (∀ v ∈ P ++ u₀ :: queue, ind v = 0) →
      (∀ v ∈ C, v ∉ P ++ u₀ :: queue) →
      (P ++ u₀ :: (processSuccs rest ind queue).2).Nodup ∧
      (∀ v, (processSuccs rest ind queue).1 v +
        (procP (buildAdj (nodes.map (·.id)) conns) P v +
          cnt (buildAdj (nodes.map (·.id)) conns u₀) v) =
        buildInDegree conns v) ∧
      (∀ v ∈ P ++ u₀ :: (processSuccs rest ind queue).2,
        (processSuccs rest ind queue).1 v = 0) ∧
      (∀ v ∈ C, v ∉ P ++ u₀ :: (processSuccs rest ind queue).2) := by
  intro rest
  induction rest with
  | nil =>
    intro done queue ind P u₀ hadj hnd hcount hzero hexcl
    refine ⟨hnd, ?_, hzero, hexcl⟩
    intro v
    rw [hadj, List.append_nil]
    exact hcount v
  | cons v vs ih =>
    intro done queue ind P u₀ hadj hnd hcount hzero hexcl
    have hP : P.Nodup := (List.nodup_append.mp hnd).1
    have hdisj := (List.nodup_append.mp hnd).2.2
    have hu₀P : u₀ ∉ P := fun hm => hdisj hm (by simp)
    have hS1 : (u₀ :: P).Nodup := List.nodup_cons.mpr ⟨hu₀P, hP⟩
    have hpp : procP (buildAdj (nodes.map (·.id)) conns) P v =
        (P.map (fun u => cnt (buildAdj (nodes.map (·.id)) conns u) v)).sum := rfl
    have hcnt0 : cnt (buildAdj (nodes.map (·.id)) conns u₀) v =
        cnt done v + cnt (v :: vs) v := by rw [hadj, cnt_append]
    have hge1 : 1 ≤ cnt (v :: vs) v := cnt_cons_self vs v
    have hvge : 1 ≤ ind v := by
      by_contra hlt
      have hv0 : ind v = 0 := by omega
      have hkc := sumCnt_le (nodes.map (·.id)) conns (u₀ :: P) hS1 v
      simp only [List.map_cons, List.sum_cons] at hkc
      have hcv := hcount v
      rw [hpp] at hcv
      omega
    simp only [processSuccs]
    have hcount2 : ∀ w, (fun k => if k = v then ind v - 1 else ind k) w +
        (procP (buildAdj (nodes.map (·.id)) conns) P w + cnt (done ++ [v]) w) =
        buildInDegree conns w := by
      intro w
      by_cases hw : w = v
      · subst hw
        have hred : (fun k => if k = w then ind w - 1 else ind k) w = ind w - 1 := by simp
        rw [hred, cnt_append, cnt_singleton_self]
        have hcv := hcount w
        omega
      · have hred : (fun k => if k = v then ind v - 1 else ind k) w = ind w := by simp [hw]
        rw [hred, cnt_append, cnt_singleton_ne v w hw]
        have hcw := hcount w
        omega
    have hadj2 : buildAdj (nodes.map (·.id)) conns u₀ = (done ++ [v]) ++ vs := by
      rw [hadj]
      simp
    by_cases hd : ind v - 1 = 0
    · have hindv : ind v = 1 := by omega
      have hfresh : v ∉ P ++ u₀ :: queue := by
        intro hmem
        have := hzero v hmem
        omega
      have hvC : v ∉ C := by
        intro hvc
        obtain ⟨u, huC, hcntu⟩ := hC v hvc
        have huPQ : u ∉ P ++ u₀ :: queue := hexcl u huC
        have hune : ¬(u = u₀) := fun he => huPQ (by simp [he])
        have hunP : u ∉ P := fun hm => huPQ (List.mem_append_left _ hm)
        have hS2 : (u :: u₀ :: P).Nodup := by
          refine List.nodup_cons.mpr ⟨?_, hS1⟩
          intro hm
          rcases List.mem_cons.mp hm with h | h
          · exact hune h
          · exact hunP h
        have hkc := sumCnt_le (nodes.map (·.id)) conns (u :: u₀ :: P) hS2 v
        simp only [List.map_cons, List.sum_cons] at hkc
        have hcv := hcount v
        rw [hpp] at hcv
        omega
      rw [if_pos hd]
      have hnd2 : (P ++ u₀ :: (queue ++ [v])).Nodup := by
        have heq : P ++ u₀ :: (queue ++ [v]) = (P ++ u₀ :: queue) ++ [v] := by simp
        rw [heq, List.nodup_append]
        refine ⟨hnd, List.nodup_singleton v, ?_⟩
        intro a ha hav
        simp only [List.mem_singleton] at hav
        exact hfresh (hav ▸ ha)
      have hzero2 : ∀ w ∈ P ++ u₀ :: (queue ++ [v]),
          (fun k => if k = v then ind v - 1 else ind k) w = 0 := by
        intro w hw
        by_cases hwv : w = v
        · simp [hwv, hd]
        · simp only [hwv, if_false, ite_false]
          have hw2 : w ∈ P ++ u₀ :: queue := by
            rcases List.mem_append.mp hw with h | h
            · exact List.mem_append_left _ h
            · rcases List.mem_cons.mp h with h | h
              · simp [h]
              · rcases List.mem_append.mp h with h | h
                · exact List.mem_append_right _ (List.mem_cons_of_mem _ h)
                · simp at h
                  exact absurd h hwv
          exact hzero w hw2
      have hexcl2 : ∀ w ∈ C, w ∉ P ++ u₀ :: (queue ++ [v]) := by
        intro w hwC hw
        by_cases hwv : w = v
        · exact hvC (hwv ▸ hwC)
        · refine hexcl w hwC ?_
          rcases List.mem_append.mp hw with h | h
          · exact List.mem_append_left _ h
          · rcases List.mem_cons.mp h with h | h
            · simp [h]
            · rcases List.mem_append.mp h with h | h
              · exact List.mem_append_right _ (List.mem_cons_of_mem _ h)
              · simp at h
                exact absurd h hwv
      exact ih (done ++ [v]) (queue ++ [v]) _ P u₀ hadj2 hnd2 hcount2 hzero2 hexcl2
    · rw [if_neg hd]
      have hfresh : v ∉ P ++ u₀ :: queue := by
        intro hmem
        have := hzero v hmem
        omega
      have hzero2 : ∀ w ∈ P ++ u₀ :: queue,
          (fun k => if k = v then ind v - 1 else ind k) w = 0 := by
        intro w hw
        have hwv : ¬(w = v) := fun he => hfresh (he ▸ hw)
        simp only [hwv, if_false, ite_false]
        exact hzero w hw
      exact ih (done ++ [v]) queue _ P u₀ hadj2 hnd hcount2 hzero2 hexcl


theorem kahnLoop_invariant (nodes : List WorkflowNode) (conns : List Connection)
    (C : List String)
    (hC : ∀ v ∈ C, ∃ u, u ∈ C ∧ 1 ≤ cnt (buildAdj (nodes.map (·.id)) conns u) v) :
    ∀ (f : Nat) (queue P : List String) (ind : String → Nat),
      (P ++ queue).Nodup →
      (∀ v, ind v + procP (buildAdj (nodes.map (·.id)) conns) P v = buildInDegree conns v) →
      (∀ v ∈ P ++ queue, ind v = 0) →
      (∀ v ∈ C, v ∉ P ++ queue) →
      ∃ P' : List String, kahnLoop nodes (buildAdj (nodes.map (·.id)) conns) f queue ind
          (P.filterMap (nodeMapFind nodes)) =
        List.filterMap (nodeMapFind nodes) P' ∧ P'.Nodup ∧ (∀ v ∈ C, v ∉ P') := by
  intro f
  induction f with
  | zero =>
    intro queue P ind hnd hcount hzero hexcl
    refine ⟨P, by simp [kahnLoop], (List.nodup_append.mp hnd).1, ?_⟩
    intro v hv hp
    exact hexcl v hv (List.mem_append_left _ hp)
  | succ f ih =>
    intro queue P ind hnd hcount hzero hexcl
    cases queue with
    | nil =>
      refine ⟨P, by simp [kahnLoop], (List.nodup_append.mp hnd).1, ?_⟩
      intro v hv hp
      exact hexcl v hv (List.mem_append_left _ hp)
    | cons u₀ rest =>
      obtain ⟨hnd2, hcount2, hzero2, hexcl2⟩ :=
        processSuccs_invariant nodes conns C hC
          (buildAdj (nodes.map (·.id)) conns u₀) [] rest ind P u₀
          (by simp) hnd
          (by
            intro v
            have := hcount v
            simp only [cnt, List.countP_nil]
            omega)
          hzero hexcl
      have hshape : ∀ (l : List String), P ++ u₀ :: l = (P ++ [u₀]) ++ l := by
        intro l
        simp
      have hcount3 : ∀ v,
          (processSuccs (buildAdj (nodes.map (·.id)) conns u₀) ind rest).1 v +
            procP (buildAdj (nodes.map (·.id)) conns) (P ++ [u₀]) v =
          buildInDegree conns v := by
        intro v
        rw [procP_append_one]
        have := hcount2 v
        omega
      obtain ⟨P', hloop, hndP, hexclP⟩ := ih
        (processSuccs (buildAdj (nodes.map (·.id)) conns u₀) ind rest).2
        (P ++ [u₀])
        (processSuccs (buildAdj (nodes.map (·.id)) conns u₀) ind rest).1
        (by rw [← hshape]; exact hnd2) hcount3
        (by
          intro v hv
          rw [← hshape] at hv
          exact hzero2 v hv)
        (by
          intro v hv h2
          rw [← hshape] at h2
          exact hexcl2 v hv h2)
      refine ⟨P', ?_, hndP, hexclP⟩
      simp only [kahnLoop]
      rw [← hloop]
      congr 1
      rw [List.filterMap_append]
      cases hf : nodeMapFind nodes u₀ <;> simp [List.filterMap_cons, hf]


theorem nodeMapFind_id (nodes : List WorkflowNode) (u : String) (n : WorkflowNode)
    (h : nodeMapFind nodes u = some n) : n.id = u ∧ n ∈ nodes := by
  unfold nodeMapFind at h
  constructor
  · have h2 := List.find?_some h
    simpa using h2
  · have h2 := List.mem_of_find?_eq_some h
    exact List.mem_reverse.mp h2

theorem filterMap_find_map_id (nodes : List WorkflowNode) :
    ∀ (P : List String),
      (P.filterMap (nodeMapFind nodes)).map (·.id) =
        P.filter (fun u => (nodeMapFind nodes u).isSome) := by
  intro P
  induction P with
  | nil => rfl
  | cons u P ih =>
    cases hf : nodeMapFind nodes u with
    | some n =>
      have hid := (nodeMapFind_id nodes u n hf).1
      simp [List.filterMap_cons, List.filter_cons, hf, hid, ih]
    | none => simp [List.filterMap_cons, List.filter_cons, hf, ih]

/-- C2 amended: a graph with a directed cycle through existing steps fails
validation — `getExecutionOrder` returns `none` — and a workflow run on
such a graph performs no backend calls at all.  (The original claim also
asserted this for a disconnected extra step; the counterexample shows that
part fails.) -/
theorem C2_cycle_validation (nodes : List WorkflowNode) (conns : List Connection)
    (C : List String)
    (hids : (nodes.map (·.id)).Nodup)
    (hcyc : isCycle conns (nodes.map (·.id)) C = true) :
    getExecutionOrder nodes conns = none ∧
    ∀ (images : List ImageFile) (ai : Option String) (env : Env),
      (executeWorkflow nodes conns images ai env).calls = [] := by
  have hCid : ∀ v ∈ C, v ∈ nodes.map (·.id) := isCycle_mem_nodeIds conns _ C hcyc
  have hC : ∀ v ∈ C, ∃ u, u ∈ C ∧ 1 ≤ cnt (buildAdj (nodes.map (·.id)) conns u) v := by
    intro v hv
    obtain ⟨u, hu, he⟩ := isCycle_pred conns _ C hcyc v hv
    exact ⟨u, hu, edgeB_cnt _ conns u v (hCid u hu) he⟩
  obtain ⟨v₀, hv₀⟩ : ∃ v₀, v₀ ∈ C := by
    cases C with
    | nil => simp [isCycle] at hcyc
    | cons a l => exact ⟨a, by simp⟩
  have hv₀id : v₀ ∈ nodes.map (·.id) := hCid v₀ hv₀
  have hmain : getExecutionOrder nodes conns = none := by
    by_contra hne
    obtain ⟨out, hout⟩ : ∃ out, getExecutionOrder nodes conns = some out := by
      cases h : getExecutionOrder nodes conns with
      | none => exact absurd h hne
      | some out => exact ⟨out, rfl⟩
    have hn0 : ¬(nodes.length = 0) := by
      intro h0
      have hnil : nodes = [] := List.length_eq_zero.mp h0
      subst hnil
      simp at hv₀id
    simp only [getExecutionOrder, hn0, if_false, ite_false] at hout
    have hseedids : ((nodes.filter
        (fun n => decide (buildInDegree conns n.id = 0))).map (·.id)).Nodup := by
      have hsub : List.Sublist
          ((nodes.filter (fun n => decide (buildInDegree conns n.id = 0))).map (·.id))
          (nodes.map (·.id)) := (List.filter_sublist _).map _
      exact List.Nodup.sublist hsub hids
    obtain ⟨P', hloop, hndP, hexclP⟩ := kahnLoop_invariant nodes conns C hC
      (nodes.length + conns.length + 1)
      ((nodes.filter (fun n => decide (buildInDegree conns n.id = 0))).map (·.id))
      [] (buildInDegree conns)
      (by simpa using hseedids)
      (by intro v; simp [procP])
      (by
        intro v hv
        simp only [List.nil_append] at hv
        obtain ⟨n, hn, hnid⟩ := List.mem_map.mp hv
        have h2 := List.of_mem_filter hn
        rw [← hnid]
        simpa using h2)
      (by
        intro v hv hmem
        simp only [List.nil_append] at hmem
        obtain ⟨n, hn, hnid⟩ := List.mem_map.mp hmem
        obtain ⟨u, hu, hcnt⟩ := hC v hv
        have hle := sumCnt_le (nodes.map (·.id)) conns [u] (List.nodup_singleton u) v
        simp only [List.map_cons, List.map_nil, List.sum_cons, List.sum_nil,
          Nat.add_zero] at hle
        have hseedzero : buildInDegree conns n.id = 0 := by
          simpa using List.of_mem_filter hn
        rw [hnid] at hseedzero
        omega)
    simp only [List.filterMap_nil] at hloop
    rw [hloop] at hout
    by_cases hl : (List.filterMap (nodeMapFind nodes) P').length = nodes.length
    · have hmapid := filterMap_find_map_id nodes P'
      have hndout : (P'.filter (fun u => (nodeMapFind nodes u).isSome)).Nodup :=
        List.Nodup.filter _ hndP
      have hsubset : ∀ x ∈ P'.filter (fun u => (nodeMapFind nodes u).isSome),
          x ∈ (nodes.map (·.id)).erase v₀ := by
        intro x hx
        have hxP : x ∈ P' := List.mem_of_mem_filter hx
        have hxs : (nodeMapFind nodes x).isSome := by simpa using List.of_mem_filter hx
        obtain ⟨n, hn⟩ := Option.isSome_iff_exists.mp hxs
        have hni := nodeMapFind_id nodes x n hn
        have hxid : x ∈ nodes.map (·.id) := by
          rw [← hni.1]
          exact List.mem_map_of_mem (·.id) hni.2
        have hne : x ≠ v₀ := by
          intro he
          exact hexclP v₀ hv₀ (he ▸ hxP)
        exact (List.mem_erase_of_ne hne).mpr hxid
      have hsp := List.subperm_of_subset hndout hsubset
      have hlen2 := hsp.length_le
      have herase : ((nodes.map (·.id)).erase v₀).length = nodes.length - 1 := by
        rw [List.length_erase_of_mem hv₀id, List.length_map]
      have hfl : (P'.filter (fun u => (nodeMapFind nodes u).isSome)).length =
          nodes.length := by
        rw [← hmapid, List.length_map]
        exact hl
      omega
    · rw [if_neg hl] at hout
      cases hout
  refine ⟨hmain, ?_⟩
  intro images ai env
  simp [executeWorkflow, hmain]

/-- Witness for the amended C2 on the two-step cycle A→B→A. -/
theorem C2_witness :
    getExecutionOrder [nA, nB] [⟨"A", "B"⟩, ⟨"B", "A"⟩] = none ∧
    ∀ (images : List ImageFile) (ai : Option String) (env : Env),
      (executeWorkflow [nA, nB] [⟨"A", "B"⟩, ⟨"B", "A"⟩] images ai env).calls = [] :=
  C2_cycle_validation [nA, nB] [⟨"A", "B"⟩, ⟨"B", "A"⟩] ["A", "B"] (by decide) (by decide)



theorem attemptGenerate_calls_unsig (env : Env) (site : Nat) (m : String) :
    ∀ (fuel a : Nat) (st : SvcSt),
      (∀ c ∈ st.calls, env.sig c.time = false) →
      ∀ c ∈ (attemptGenerate env site m fuel a st).2.calls, env.sig c.time = false := by
  intro fuel
  induction fuel with
  | zero => intro a st h c hc; exact h c (by simpa [attemptGenerate] using hc)
  | succ f ih =>
    intro a st h c hc
    by_cases h1 : env.sig st.t
    · simp only [attemptGenerate, h1, if_pos, ite_true] at hc
      exact h c hc
    · have hnew : ∀ c2 ∈ st.calls ++ [(⟨site, m, a, st.t⟩ : Call)],
          env.sig c2.time = false := by
        intro c2 hc2
        rcases List.mem_append.mp hc2 with h2 | h2
        · exact h c2 h2
        · simp only [List.mem_singleton] at h2
          subst h2
          simpa using h1
      cases hapi : env.api site m a with
      | ok mt dt =>
        simp only [attemptGenerate, h1, hapi, Bool.false_eq_true, if_false, ite_false] at hc
        exact hnew c hc
      | err msg =>
        by_cases hq : quotaTest msg
        · by_cases hle : a + 1 ≤ MAX_RETRIES
          · by_cases h2 : env.sig (st.t + 1)
            · simp only [attemptGenerate, h1, hapi, hq, hle, h2, Bool.false_eq_true,
                if_false, ite_false, if_true, ite_true, if_pos, if_neg] at hc
              exact hnew c hc
            · by_cases h3 : env.sig (st.t + 2)
              · simp only [attemptGenerate, h1, hapi, hq, hle, h2, h3, Bool.false_eq_true,
                  if_false, ite_false, if_true, ite_true] at hc
                exact hnew c hc
              · simp only [attemptGenerate, h1, hapi, hq, hle, h2, h3, Bool.false_eq_true,
                  if_false, ite_false, if_true, ite_true] at hc
                exact ih (a + 1) _ (by simpa using hnew) c hc
          · simp only [attemptGenerate, h1, hapi, hq, hle, Bool.false_eq_true,
              if_false, ite_false, if_true, ite_true] at hc
            exact hnew c hc
        · simp only [attemptGenerate, h1, hapi, hq, Bool.false_eq_true,
            if_false, ite_false] at hc
          exact hnew c hc

theorem modelsLoop_calls_unsig (env : Env) (site : Nat) :
    ∀ (models : List String) (failures : List (String × String)) (st : SvcSt),
      (∀ c ∈ st.calls, env.sig c.time = false) →
      ∀ c ∈ (modelsLoop env site models failures st).2.calls, env.sig c.time = false := by
  intro models
  induction models with
  | nil => intro failures st h c hc; exact h c (by simpa [modelsLoop] using hc)
  | cons m ms ih =>
    intro failures st h c hc
    have hgen := attemptGenerate_calls_unsig env site m (MAX_RETRIES + 1) 0 st h
    rcases hres : attemptGenerate env site m (MAX_RETRIES + 1) 0 st with ⟨out, st1⟩
    rw [hres] at hgen
    simp only at hgen
    cases out with
    | success r =>
      by_cases hr : r = ""
      · by_cases h1 : env.sig st1.t
        · simp only [modelsLoop, hres, hr, h1, if_true, ite_true, if_pos] at hc
          exact hgen c hc
        · by_cases h2 : env.sig (st1.t + 1)
          · simp only [modelsLoop, hres, hr, h1, h2, Bool.false_eq_true, if_false,
              ite_false, if_true, ite_true] at hc
            exact hgen c hc
          · simp only [modelsLoop, hres, hr, h1, h2, Bool.false_eq_true, if_false,
              ite_false, if_true, ite_true] at hc
            exact ih _ _ (by simpa using hgen) c hc
      · simp only [modelsLoop, hres, hr, Bool.false_eq_true, if_false, ite_false] at hc
        exact hgen c hc
    | quotaFail =>
      by_cases h1 : env.sig st1.t
      · simp only [modelsLoop, hres, h1, if_true, ite_true, if_pos] at hc
        exact hgen c hc
      · by_cases h2 : env.sig (st1.t + 1)
        · simp only [modelsLoop, hres, h1, h2, Bool.false_eq_true, if_false,
            ite_false, if_true, ite_true] at hc
          exact hgen c hc
        · simp only [modelsLoop, hres, h1, h2, Bool.false_eq_true, if_false,
            ite_false, if_true, ite_true] at hc
          exact ih _ _ (by simpa using hgen) c hc
    | thrown msg =>
      simp only [modelsLoop, hres] at hc
      exact hgen c hc

theorem editImage_calls_unsig (env : Env) (site : Nat) (ai : Option String)
    (url prompt : String) (st : SvcSt)
    (h : ∀ c ∈ st.calls, env.sig c.time = false) :
    ∀ c ∈ (editImage env site ai url prompt st).2.calls, env.sig c.time = false := by
  intro c hc
  by_cases hai : ai.isNone
  · exact h c (by simpa [editImage, hai] using hc)
  · by_cases h1 : env.sig st.t
    · simp only [editImage, hai, Bool.false_eq_true, if_false, ite_false, h1,
        if_true, ite_true] at hc
      exact h c hc
    · cases hp : parseDataUrl url with
      | none =>
        simp only [editImage, hai, h1, hp, Bool.false_eq_true, if_false, ite_false] at hc
        exact h c hc
      | some pr =>
        simp only [editImage, hai, h1, hp, Bool.false_eq_true, if_false, ite_false] at hc
        exact modelsLoop_calls_unsig env site MODEL_PREFERENCES [] st h c hc


theorem runSteps_calls_unsig (env : Env) (ai : Option String) (image : ImageFile) :
    ∀ (steps : List WorkflowNode) (site : Nat) (url : String) (st : SvcSt)
      (outputs : List OutputImage) (logs : List OperationLog),
      (∀ c ∈ st.calls, env.sig c.time = false) →
      (∀ url2 site2 st2 outputs2 logs2,
        runSteps env ai image steps site url st outputs logs =
          .ok url2 site2 st2 outputs2 logs2 →
        ∀ c ∈ st2.calls, env.sig c.time = false) ∧
      (∀ r, runSteps env ai image steps site url st outputs logs = .halt r →
        ∀ c ∈ r.calls, env.sig c.time = false) := by
  intro steps
  induction steps with
  | nil =>
    intro site url st outputs logs h
    constructor
    · intro url2 site2 st2 outputs2 logs2 heq
      cases heq
      exact h
    · intro r heq
      cases heq
  | cons step rest ih =>
    intro site url st outputs logs h
    have hedit := editImage_calls_unsig env site ai url step.prompt st h
    rcases hres : editImage env site ai url step.prompt st with ⟨out, st1⟩
    rw [hres] at hedit
    simp only at hedit
    cases out with
    | ok r =>
      have := ih (site + 1) r st1
        (if rest.isEmpty then outputs ++ [⟨image.id, image.name, r⟩] else outputs)
        (logs ++ [⟨image.name, step.name, true, SIMULATED_COST_PER_OP,
          SIMULATED_CREDITS_PER_OP⟩]) hedit
      constructor
      · intro url2 site2 st2 outputs2 logs2 heq
        simp only [runSteps, hres] at heq
        exact this.1 url2 site2 st2 outputs2 logs2 heq
      · intro r2 heq
        simp only [runSteps, hres] at heq
        exact this.2 r2 heq
    | error e =>
      constructor
      · intro url2 site2 st2 outputs2 logs2 heq
        by_cases he : e = RunErr.plain "Request aborted" <;>
          cases e <;> simp [runSteps, hres, he] at heq
      · intro r2 heq
        by_cases he : e = RunErr.plain "Request aborted"
        · simp only [runSteps, hres, he, if_true, ite_true, if_pos] at heq
          cases heq
          exact hedit
        · cases e with
          | quota q d =>
            simp only [runSteps, hres, he, Bool.false_eq_true, if_false, ite_false] at heq
            cases heq
            exact hedit
          | plain msg =>
            simp only [runSteps, hres, he, Bool.false_eq_true, if_false, ite_false] at heq
            cases heq
            exact hedit

theorem runImages_calls_unsig (env : Env) (ai : Option String)
    (workflow : List WorkflowNode) :
    ∀ (images : List ImageFile) (site : Nat) (st : SvcSt)
      (outputs : List OutputImage) (logs : List OperationLog),
      (∀ c ∈ st.calls, env.sig c.time = false) →
      ∀ c ∈ (runImages env ai workflow images site st outputs logs).calls,
        env.sig c.time = false := by
  intro images
  induction images with
  | nil => intro site st outputs logs h c hc; exact h c (by simpa [runImages] using hc)
  | cons image rest ih =>
    intro site st outputs logs h c hc
    by_cases h1 : env.sig st.t
    · simp only [runImages, h1, if_true, ite_true, if_pos] at hc
      exact h c hc
    · have hsteps := runSteps_calls_unsig env ai image workflow site image.dataUrl st
        outputs logs h
      rcases hres : runSteps env ai image workflow site image.dataUrl st outputs logs with
        ⟨url2, site2, st2, outputs2, logs2⟩ | r
      · simp only [runImages, h1, Bool.false_eq_true, if_false, ite_false, hres] at hc
        exact ih site2 st2 outputs2 logs2
          (hsteps.1 url2 site2 st2 outputs2 logs2 hres) c hc
      · simp only [runImages, h1, Bool.false_eq_true, if_false, ite_false, hres] at hc
        exact hsteps.2 r hres c hc

theorem executeWorkflow_calls_unsig (nodes : List WorkflowNode) (conns : List Connection)
    (images : List ImageFile) (ai : Option String) (env : Env) :
    ∀ c ∈ (executeWorkflow nodes conns images ai env).calls, env.sig c.time = false := by
  intro c hc
  cases hord : getExecutionOrder nodes conns with
  | none => simp [executeWorkflow, hord] at hc
  | some workflow =>
    by_cases hai : ai.isNone
    · simp [executeWorkflow, hord, hai] at hc
    · by_cases himg : images.isEmpty
      · simp [executeWorkflow, hord, hai, himg] at hc
      · by_cases hwf : workflow.isEmpty
        · simp [executeWorkflow, hord, hai, himg, hwf] at hc
        · simp only [executeWorkflow, hord, hai, himg, hwf, Bool.false_eq_true,
            if_false, ite_false] at hc
          exact runImages_calls_unsig env ai workflow images 0 ⟨0, [], []⟩ [] []
            (by intro c2 hc2; cases hc2) c hc


theorem runSteps_cancel_shape (env : Env) (ai : Option String) (image : ImageFile) :
    ∀ (steps : List WorkflowNode) (site : Nat) (url : String) (st : SvcSt)
      (outputs : List OutputImage) (logs : List OperationLog),
      (∀ url2 site2 st2 outputs2 logs2,
        runSteps env ai image steps site url st outputs logs =
          .ok url2 site2 st2 outputs2 logs2 →
        (∃ tl, logs2 = logs ++ tl ∧ ∀ e ∈ tl, e.success = true) ∧
        (steps = [] → outputs2 = outputs) ∧
        (steps ≠ [] → outputs2 = outputs ++ [⟨image.id, image.name, url2⟩])) ∧
      (∀ r, runSteps env ai image steps site url st outputs logs = .halt r →
        (r.status = RunStatus.cancelled ∨ r.status = RunStatus.abortedBetweenImages) →
        r.error = none ∧ r.outputs = outputs ∧
        ∃ tl, r.logs = logs ++ tl ∧ ∀ e ∈ tl, e.success = true) := by
  intro steps
  induction steps with
  | nil =>
    intro site url st outputs logs
    constructor
    · intro url2 site2 st2 outputs2 logs2 heq
      cases heq
      refine ⟨⟨[], ?_, ?_⟩, ?_, ?_⟩
      · simp
      · intro e he
        cases he
      · intro _
        rfl
      · intro h
        exact absurd rfl h
    · intro r heq
      cases heq
  | cons step rest ih =>
    intro site url st outputs logs
    rcases hres : editImage env site ai url step.prompt st with ⟨out, st1⟩
    cases out with
    | ok r =>
      have hih := ih (site + 1) r st1
        (if rest.isEmpty then outputs ++ [⟨image.id, image.name, r⟩] else outputs)
        (logs ++ [⟨image.name, step.name, true, SIMULATED_COST_PER_OP,
          SIMULATED_CREDITS_PER_OP⟩])
      constructor
      · intro url2 site2 st2 outputs2 logs2 heq
        simp only [runSteps, hres] at heq
        obtain ⟨⟨tl, htl, htls⟩, hnil, hcons⟩ := hih.1 url2 site2 st2 outputs2 logs2 heq
        refine ⟨⟨⟨image.name, step.name, true, SIMULATED_COST_PER_OP,
          SIMULATED_CREDITS_PER_OP⟩ :: tl, ?_, ?_⟩, ?_, ?_⟩
        · simpa using htl
        · intro e he
          rcases List.mem_cons.mp he with h | h
          · rw [h]
          · exact htls e h
        · intro h
          exact absurd h (List.cons_ne_nil step rest)
        · intro _
          cases rest with
          | nil =>
            have h2 := hnil rfl
            simp only [List.isEmpty_nil, if_true, ite_true] at h2
            have hurl : url2 = r := by
              cases heq
              rfl
            rw [h2, hurl]
          | cons b bs =>
            have h2 := hcons (List.cons_ne_nil b bs)
            simpa using h2
      · intro r2 heq
        simp only [runSteps, hres] at heq
        cases rest with
        | nil =>
          intro hst
          simp only [runSteps] at heq
          cases heq
        | cons b bs =>
          intro hst
          obtain ⟨he, ho, tl, htl, htls⟩ := hih.2 r2 heq hst
          refine ⟨he, ?_, ⟨image.name, step.name, true, SIMULATED_COST_PER_OP,
            SIMULATED_CREDITS_PER_OP⟩ :: tl, ?_, ?_⟩
          · simpa using ho
          · simpa using htl
          · intro e he2
            rcases List.mem_cons.mp he2 with h | h
            · rw [h]
            · exact htls e h
    | error e =>
      constructor
      · intro url2 site2 st2 outputs2 logs2 heq
        by_cases he : e = RunErr.plain "Request aborted" <;>
          cases e <;> simp [runSteps, hres, he] at heq
      · intro r2 heq hst
        by_cases he : e = RunErr.plain "Request aborted"
        · simp only [runSteps, hres, he, if_true, ite_true, if_pos] at heq
          cases heq
          refine ⟨rfl, rfl, [], ?_, ?_⟩
          · simp
          · intro e2 he2
            cases he2
        · cases e with
          | quota q d =>
            simp only [runSteps, hres, he, Bool.false_eq_true, if_false, ite_false] at heq
            cases heq
            rcases hst with h | h <;> cases h
          | plain msg =>
            simp only [runSteps, hres, he, Bool.false_eq_true, if_false, ite_false] at heq
            cases heq
            rcases hst with h | h <;> cases h

theorem runImages_cancel_shape (env : Env) (ai : Option String)
    (workflow : List WorkflowNode) (hwf : workflow ≠ []) :
    ∀ (images : List ImageFile) (site : Nat) (st : SvcSt)
      (outputs : List OutputImage) (logs : List OperationLog) (done : List ImageFile),
      outputs.map (fun o => o.originalImageId) = done.map (fun i => i.id) →
      (∀ e ∈ logs, e.success = true) →
      ((runImages env ai workflow images site st outputs logs).status =
          RunStatus.cancelled ∨
       (runImages env ai workflow images site st outputs logs).status =
          RunStatus.abortedBetweenImages) →
      (runImages env ai workflow images site st outputs logs).error = none ∧
      (∀ e ∈ (runImages env ai workflow images site st outputs logs).logs,
        e.success = true) ∧
      ∃ k, k ≤ images.length ∧
        (runImages env ai workflow images site st outputs logs).outputs.map
            (fun o => o.originalImageId) =
          done.map (fun i => i.id) ++ (images.take k).map (fun i => i.id) := by
  intro images
  induction images with
  | nil =>
    intro site st outputs logs done hout hlog hst
    simp only [runImages] at hst
    cases hst with
    | inl h => cases h
    | inr h => cases h
  | cons image rest ih =>
    intro site st outputs logs done hout hlog hst
    by_cases h1 : env.sig st.t
    · have hrun : runImages env ai workflow (image :: rest) site st outputs logs =
          ⟨RunStatus.abortedBetweenImages, outputs, logs, none, st.calls⟩ := by
        simp [runImages, h1]
      rw [hrun]
      exact ⟨rfl, hlog, 0, by simp, by simpa using hout⟩
    · have hsteps := runSteps_cancel_shape env ai image workflow site image.dataUrl st
        outputs logs
      rcases hres : runSteps env ai image workflow site image.dataUrl st outputs logs with
        ⟨url2, site2, st2, outputs2, logs2⟩ | r
      · simp only [runImages, h1, Bool.false_eq_true, if_false, ite_false, hres]
          at hst ⊢
        obtain ⟨⟨tl, htl, htls⟩, _, hcons⟩ := hsteps.1 url2 site2 st2 outputs2 logs2 hres
        have hout2 : outputs2.map (fun o => o.originalImageId) =
            (done ++ [image]).map (fun i => i.id) := by
          rw [hcons hwf]
          simp [hout]
        have hlog2 : ∀ e ∈ logs2, e.success = true := by
          intro e he
          rw [htl] at he
          rcases List.mem_append.mp he with h | h
          · exact hlog e h
          · exact htls e h
        obtain ⟨he, hl, k, hk, houts⟩ := ih site2 st2 outputs2 logs2 (done ++ [image])
          hout2 hlog2 hst
        refine ⟨he, hl, k + 1, by simpa using Nat.succ_le_succ hk, ?_⟩
        rw [houts]
        simp
      · simp only [runImages, h1, Bool.false_eq_true, if_false, ite_false, hres]
          at hst ⊢
        obtain ⟨he, ho, tl, htl, htls⟩ := hsteps.2 r hres hst
        refine ⟨he, ?_, 0, by simp, by simpa [ho] using hout⟩
        intro e he2
        rw [htl] at he2
        rcases List.mem_append.mp he2 with h | h
        · exact hlog e h
        · exact htls e h


/-- C3: cancellation. First, no backend transform call is ever performed at
a logical time at which the abort signal is raised: every abort check
precedes its call with no intervening suspension, so once the signal is set
the run stops at the next suspension point and attempts no further backend
work. Second, when the run ends cancelled (the mid-image abort path or the
between-images abort), the outcome is distinct from a failure outcome: no
error message is surfaced, no failure record is appended (every log record
is a success record), and every output already produced is kept — the
output list is exactly the prefix of input images that completed all
steps. -/
theorem C3_cancellation (nodes : List WorkflowNode) (conns : List Connection)
    (images : List ImageFile) (ai : Option String) (env : Env) :
    (∀ c ∈ (executeWorkflow nodes conns images ai env).calls,
      env.sig c.time = false) ∧
    (((executeWorkflow nodes conns images ai env).status = RunStatus.cancelled ∨
      (executeWorkflow nodes conns images ai env).status =
        RunStatus.abortedBetweenImages) →
      (executeWorkflow nodes conns images ai env).error = none ∧
      (∀ e ∈ (executeWorkflow nodes conns images ai env).logs, e.success = true) ∧
      ∃ k, k ≤ images.length ∧
        (executeWorkflow nodes conns images ai env).outputs.map
          (fun o => o.originalImageId) = (images.take k).map (fun i => i.id)) := by
  refine ⟨executeWorkflow_calls_unsig nodes conns images ai env, ?_⟩
  intro hst
  cases hord : getExecutionOrder nodes conns with
  | none => simp [executeWorkflow, hord] at hst
  | some workflow =>
    by_cases hai : ai.isNone
    · simp [executeWorkflow, hord, hai] at hst
    · by_cases himg : images.isEmpty
      · simp [executeWorkflow, hord, hai, himg] at hst
      · by_cases hwf : workflow.isEmpty
        · simp [executeWorkflow, hord, hai, himg, hwf] at hst
        · have hrun : executeWorkflow nodes conns images ai env =
              runImages env ai workflow images 0 ⟨0, [], []⟩ [] [] := by
            simp [executeWorkflow, hord, hai, himg, hwf]
          rw [hrun] at hst ⊢
          have hwf2 : workflow ≠ [] := by
            intro h
            rw [h] at hwf
            simp at hwf
          obtain ⟨he, hl, k, hk, ho⟩ := runImages_cancel_shape env ai workflow hwf2
            images 0 ⟨0, [], []⟩ [] [] [] (by simp) (by intro e he; cases he) hst
          exact ⟨he, hl, k, hk, by simpa using ho⟩

theorem C3_witness :
    (∀ c ∈ (executeWorkflow [nA] [] [img1] (some "k") envCancel).calls,
      envCancel.sig c.time = false) ∧
    (executeWorkflow [nA] [] [img1] (some "k") envCancel).status =
      RunStatus.cancelled ∧
    (executeWorkflow [nA] [] [img1] (some "k") envCancel).error = none ∧
    ∀ e ∈ (executeWorkflow [nA] [] [img1] (some "k") envCancel).logs,
      e.success = true := by
  have h := C3_cancellation [nA] [] [img1] (some "k") envCancel
  have hst : (executeWorkflow [nA] [] [img1] (some "k") envCancel).status =
      RunStatus.cancelled := by decide
  obtain ⟨he, hl, _⟩ := h.2 (Or.inl hst)
  exact ⟨h.1, hst, he, hl⟩


theorem runSteps_fail_shape (env : Env) (ai : Option String) (image : ImageFile) :
    ∀ (steps : List WorkflowNode) (site : Nat) (url : String) (st : SvcSt)
      (outputs : List OutputImage) (logs : List OperationLog) (r : RunResult),
      runSteps env ai image steps site url st outputs logs = .halt r →
      r.status = RunStatus.failed →
      r.outputs = outputs ∧
      ∃ step, step ∈ steps ∧ ∃ succs,
        r.logs = logs ++ succs ++ [⟨image.name, step.name, false, 0, 0⟩] ∧
        (∀ e ∈ succs, e.success = true) ∧
        (r.error = some ("Quota exceeded while processing \"" ++ step.name ++
            "\" for \"" ++ image.name ++
            "\". Please check your Google Cloud billing and Gemini API quotas: " ++
            helpUrl) ∨
         ∃ msg, r.error = some ("Error on \"" ++ step.name ++ "\" for \"" ++
            image.name ++ "\": " ++ msg)) := by
  intro steps
  induction steps with
  | nil =>
    intro site url st outputs logs r heq
    cases heq
  | cons step rest ih =>
    intro site url st outputs logs r heq hst
    rcases hres : editImage env site ai url step.prompt st with ⟨out, st1⟩
    cases out with
    | ok d =>
      simp only [runSteps, hres] at heq
      cases rest with
      | nil =>
        simp only [runSteps] at heq
        cases heq
      | cons b bs =>
        obtain ⟨ho, step2, hmem, succs, hlogs, hsuccs, herr⟩ :=
          ih (site + 1) d st1 _ _ r heq hst
        refine ⟨by simpa using ho, step2, List.mem_cons_of_mem step hmem,
          ⟨image.name, step.name, true, SIMULATED_COST_PER_OP,
            SIMULATED_CREDITS_PER_OP⟩ :: succs, ?_, ?_, herr⟩
        · rw [hlogs]
          simp
        · intro e he
          rcases List.mem_cons.mp he with h | h
          · rw [h]
          · exact hsuccs e h
    | error e =>
      by_cases he : e = RunErr.plain "Request aborted"
      · simp only [runSteps, hres, he, if_true, ite_true, if_pos] at heq
        cases heq
        cases hst
      · cases e with
        | quota q d =>
          simp only [runSteps, hres, he, Bool.false_eq_true, if_false, ite_false] at heq
          cases heq
          refine ⟨rfl, step, List.mem_cons_self step rest, [], ?_, ?_, Or.inl rfl⟩
          · simp
          · intro e2 h2
            cases h2
        | plain msg =>
          simp only [runSteps, hres, he, Bool.false_eq_true, if_false, ite_false] at heq
          cases heq
          refine ⟨rfl, step, List.mem_cons_self step rest, [], ?_, ?_, Or.inr ⟨msg, rfl⟩⟩
          · simp
          · intro e2 h2
            cases h2


theorem runImages_fail_shape (env : Env) (ai : Option String)
    (workflow : List WorkflowNode) (hwf : workflow ≠ []) :
    ∀ (images : List ImageFile) (site : Nat) (st : SvcSt)
      (outputs : List OutputImage) (logs : List OperationLog) (done : List ImageFile),
      outputs.map (fun o => o.originalImageId) = done.map (fun i => i.id) →
      (∀ e ∈ logs, e.success = true) →
      (runImages env ai workflow images site st outputs logs).status =
        RunStatus.failed →
      ∃ k, k < images.length ∧ ∃ im, images[k]? = some im ∧
      ∃ step, step ∈ workflow ∧ ∃ pres,
        (runImages env ai workflow images site st outputs logs).logs =
          pres ++ [⟨im.name, step.name, false, 0, 0⟩] ∧
        (∀ e ∈ pres, e.success = true) ∧
        (runImages env ai workflow images site st outputs logs).outputs.map
            (fun o => o.originalImageId) =
          done.map (fun i => i.id) ++ (images.take k).map (fun i => i.id) ∧
        ((runImages env ai workflow images site st outputs logs).error =
            some ("Quota exceeded while processing \"" ++ step.name ++
              "\" for \"" ++ im.name ++
              "\". Please check your Google Cloud billing and Gemini API quotas: " ++
              helpUrl) ∨
         ∃ msg, (runImages env ai workflow images site st outputs logs).error =
            some ("Error on \"" ++ step.name ++ "\" for \"" ++ im.name ++
              "\": " ++ msg)) := by
  intro images
  induction images with
  | nil =>
    intro site st outputs logs done hout hlog hst
    simp only [runImages] at hst
    cases hst
  | cons image rest ih =>
    intro site st outputs logs done hout hlog hst
    by_cases h1 : env.sig st.t
    · simp only [runImages, h1, if_true, ite_true, if_pos] at hst
      cases hst
    · rcases hres : runSteps env ai image workflow site image.dataUrl st outputs logs with
        ⟨url2, site2, st2, outputs2, logs2⟩ | r
      · have hok := (runSteps_cancel_shape env ai image workflow site image.dataUrl st
          outputs logs).1 url2 site2 st2 outputs2 logs2 hres
        obtain ⟨⟨tl, htl, htls⟩, _, hcons⟩ := hok
        have hout2 : outputs2.map (fun o => o.originalImageId) =
            (done ++ [image]).map (fun i => i.id) := by
          rw [hcons hwf]
          simp [hout]
        have hlog2 : ∀ e ∈ logs2, e.success = true := by
          intro e he
          rw [htl] at he
          rcases List.mem_append.mp he with h | h
          · exact hlog e h
          · exact htls e h
        have hrun : runImages env ai workflow (image :: rest) site st outputs logs =
            runImages env ai workflow rest site2 st2 outputs2 logs2 := by
          simp [runImages, h1, hres]
        rw [hrun] at hst ⊢
        obtain ⟨k, hk, im, him, step, hstep, pres, hlogs, hpres, houts, herr⟩ :=
          ih site2 st2 outputs2 logs2 (done ++ [image]) hout2 hlog2 hst
        refine ⟨k + 1, by simpa using Nat.succ_lt_succ hk, im, by simpa using him,
          step, hstep, pres, hlogs, hpres, ?_, herr⟩
        rw [houts]
        simp
      · have hrun : runImages env ai workflow (image :: rest) site st outputs logs = r := by
          simp [runImages, h1, hres]
        rw [hrun] at hst ⊢
        obtain ⟨ho, step, hstep, succs, hlogs, hsuccs, herr⟩ :=
          runSteps_fail_shape env ai image workflow site image.dataUrl st outputs logs
            r hres hst
        refine ⟨0, by simp, image, by simp, step, hstep, logs ++ succs, ?_, ?_, ?_, herr⟩
        · rw [hlogs]
        · intro e he
          rcases List.mem_append.mp he with h | h
          · exact hlog e h
          · exact hsuccs e h
        · rw [ho, hout]
          simp


/-- C8: first failure halts the batch. Whenever a run ends on the failure
path (some step of some image threw a QuotaError or a fatal error — the
only way `executeWorkflow` reaches the failed status), there is an index k
into the input images and a step of the validated workflow such that: the
log is an all-success prefix followed by EXACTLY ONE failure record, with
zero cost and zero credits, naming that image and step, and nothing is
appended beyond it (the run stops immediately — no later step of that
image and no later image adds a record); the surfaced error names the
failing step and image (the quota-exceeded message or the generic error
message); and the output list contains exactly the k images that completed
every step before the failure, in input order. -/
theorem C8_failure_halts_batch (nodes : List WorkflowNode) (conns : List Connection)
    (images : List ImageFile) (ai : Option String) (env : Env)
    (hfail : (executeWorkflow nodes conns images ai env).status = RunStatus.failed) :
    ∃ workflow, getExecutionOrder nodes conns = some workflow ∧
    ∃ k, k < images.length ∧ ∃ im, images[k]? = some im ∧
    ∃ step, step ∈ workflow ∧ ∃ pres,
      (executeWorkflow nodes conns images ai env).logs =
        pres ++ [⟨im.name, step.name, false, 0, 0⟩] ∧
      (∀ e ∈ pres, e.success = true) ∧
      (executeWorkflow nodes conns images ai env).outputs.map
          (fun o => o.originalImageId) =
        (images.take k).map (fun i => i.id) ∧
      ((executeWorkflow nodes conns images ai env).error =
          some ("Quota exceeded while processing \"" ++ step.name ++ "\" for \"" ++
            im.name ++
            "\". Please check your Google Cloud billing and Gemini API quotas: " ++
            helpUrl) ∨
       ∃ msg, (executeWorkflow nodes conns images ai env).error =
          some ("Error on \"" ++ step.name ++ "\" for \"" ++ im.name ++
            "\": " ++ msg)) := by
  cases hord : getExecutionOrder nodes conns with
  | none =>
    rw [show executeWorkflow nodes conns images ai env = ⟨RunStatus.validationFailed,
      [], [], some "Workflow has a cycle or is disconnected. Please ensure all nodes form a single, valid flow from start to end.", []⟩ from by simp [executeWorkflow, hord]] at hfail
    cases hfail
  | some workflow =>
    by_cases hai : ai.isNone
    · simp [executeWorkflow, hord, hai] at hfail
    · by_cases himg : images.isEmpty
      · simp [executeWorkflow, hord, hai, himg] at hfail
      · by_cases hwf : workflow.isEmpty
        · simp [executeWorkflow, hord, hai, himg, hwf] at hfail
        · have hrun : executeWorkflow nodes conns images ai env =
              runImages env ai workflow images 0 ⟨0, [], []⟩ [] [] := by
            simp [executeWorkflow, hord, hai, himg, hwf]
          rw [hrun] at hfail ⊢
          have hwf2 : workflow ≠ [] := by
            intro h
            rw [h] at hwf
            simp at hwf
          obtain ⟨k, hk, im, him, step, hstep, pres, hlogs, hpres, houts, herr⟩ :=
            runImages_fail_shape env ai workflow hwf2 images 0 ⟨0, [], []⟩ [] [] []
              (by simp) (by intro e he; cases he) hfail
          exact ⟨workflow, rfl, k, hk, im, him, step, hstep, pres, hlogs, hpres,
            by simpa using houts, herr⟩

theorem C8_witness :
    (executeWorkflow [nA] [] [img1] (some "k") envFatal).status = RunStatus.failed ∧
    (∃ workflow, getExecutionOrder [nA] [] = some workflow ∧
    ∃ k, k < [img1].length ∧ ∃ im, [img1][k]? = some im ∧
    ∃ step, step ∈ workflow ∧ ∃ pres,
      (executeWorkflow [nA] [] [img1] (some "k") envFatal).logs =
        pres ++ [⟨im.name, step.name, false, 0, 0⟩] ∧
      (∀ e ∈ pres, e.success = true) ∧
      (executeWorkflow [nA] [] [img1] (some "k") envFatal).outputs.map
          (fun o => o.originalImageId) =
        ([img1].take k).map (fun i => i.id) ∧
      ((executeWorkflow [nA] [] [img1] (some "k") envFatal).error =
          some ("Quota exceeded while processing \"" ++ step.name ++ "\" for \"" ++
            im.name ++
            "\". Please check your Google Cloud billing and Gemini API quotas: " ++
            helpUrl) ∨
       ∃ msg, (executeWorkflow [nA] [] [img1] (some "k") envFatal).error =
          some ("Error on \"" ++ step.name ++ "\" for \"" ++ im.name ++
            "\": " ++ msg))) :=
  ⟨by decide, C8_failure_halts_batch [nA] [] [img1] (some "k") envFatal (by decide)⟩

end ImageFlow
